import Mathlib

/-!
Verification of the PicoIDE dataflow compute engine.

This file gives a shallow embedding, in Lean 4, of the graph compilation and
execution subsystem of the repository:

* `src/app/flow/block.py`   — the `Option` descriptor and the `Block` class
  (ports, options, accessors);
* `src/app/flow/engine.py`  — `ComputeEngine.set_schema` (instantiation, port
  resolution, edge building, cycle detection, topological compilation),
  `ComputeEngine.run` and `ComputeEngine.async_run`;
* `src/app/flow/manager.py` — `EngineManager` pool bookkeeping
  (`_create_blueprint_internal`, `_get_instance`, `_return_instance`).

Modelling conventions:

* Python dicts become association lists (`Dict α`) with Python's update
  semantics (assignment to a present key updates in place, otherwise the
  pair is appended; insertion order is preserved).
* Python values are modelled by the inductive `Val` (`None`, `int`, `bool`,
  `str`).  Numeric option bounds are restricted to integers; Python `float`
  is not modelled (no claim depends on it).
* Raising an exception is modelled with `Except PyErr` (or an explicit
  `Option PyErr` component when the Python code mutates state before
  raising, so the mutated state must be kept).
* Object identity / in-place mutation of block instances is modelled by
  keying every instance with its node id and threading an explicit store
  (`Store := String → Block`) through execution; the compiled plan stores
  instance ids where the Python plan stores object references.  This is
  faithful because `ComputeEngine.set_schema` keys `self.instances` by node
  id and the plan references exactly those objects.
-/

namespace PicoIDE

/-- Python runtime values, restricted to the shapes the verified code paths
manipulate: `None`, `int`, `bool` and `str`.  (`float` and containers are
not modelled; no claim depends on them.) -/
inductive Val where
  | none
  | int (n : Int)
  | bool (b : Bool)
  | str (s : String)
deriving DecidableEq, Repr

/-- Python exceptions raised by the embedded code. -/
inductive PyErr where
  | valueError (msg : String)
  | typeError (msg : String)
  | attributeError (msg : String)
  | keyError (msg : String)
deriving DecidableEq, Repr

/-- A Python `dict` with string keys: an association list in insertion
order. -/
abbrev Dict (α : Type) := List (String × α)

/-- `d.get(k)` lookup: value of the first (and only) binding of `k`. -/
def dictGet? {α : Type} : Dict α → String → Option α
  | [], _ => Option.none
  | p :: d, k => if p.1 == k then some p.2 else dictGet? d k

/-- `k in d`. -/
def dictMem {α : Type} : Dict α → String → Bool
  | [], _ => false
  | p :: d, k => p.1 == k || dictMem d k

/-- `d[k] = v`: update the binding in place when the key is present,
otherwise append it (Python dict insertion order; keys are unique by
construction, so updating the first occurrence is Python's semantics). -/
def dictSet {α : Type} : Dict α → String → α → Dict α
  | [], k, v => [(k, v)]
  | p :: d, k, v => if p.1 == k then (k, v) :: d else p :: dictSet d k v

theorem dictGet?_dictSet_self {α : Type} (d : Dict α) (k : String) (v : α) :
    dictGet? (dictSet d k v) k = some v := by
  induction d with
  | nil => simp [dictSet, dictGet?]
  | cons p d ih =>
    by_cases hp : p.1 == k
    · simp [dictSet, dictGet?, hp]
    · simp only [dictSet, hp, Bool.false_eq_true, if_false, dictGet?]
      exact ih

theorem dictGet?_dictSet_ne {α : Type} (d : Dict α) (k k' : String) (v : α)
    (h : k ≠ k') : dictGet? (dictSet d k v) k' = dictGet? d k' := by
  induction d with
  | nil => simp [dictSet, dictGet?, h]
  | cons p d ih =>
    by_cases hp : p.1 == k
    · have hp' : p.1 = k := by simpa using hp
      simp only [dictSet, hp, if_true, dictGet?]
      rw [if_neg (by simpa using h), if_neg (by simpa [hp'] using h)]
    · simp only [dictSet, hp, Bool.false_eq_true, if_false, dictGet?]
      by_cases hpk : p.1 == k'
      · simp [hpk]
      · rw [if_neg hpk, if_neg hpk]
        exact ih

/-- The numeric content of a Python value, for `max`/`min` comparisons
(`bool` counts as `0`/`1` in Python arithmetic). -/
def valAsNum? : Val → Option Int
  | Val.int n => some n
  | Val.bool b => some (if b then 1 else 0)
  | _ => none

/-- Python `max(a, v)` for an integer bound `a`: returns `v` itself when
`v > a` and `a` otherwise; non-numeric `v` raises `TypeError`. -/
def pyMax (a : Int) (v : Val) : Except PyErr Val :=
  match valAsNum? v with
  | some n => Except.ok (if a < n then v else Val.int a)
  | Option.none => Except.error (PyErr.typeError "unsupported operand type for max")

/-- Python `min(a, v)` for an integer bound `a`: returns `v` itself when
`v < a` and `a` otherwise; non-numeric `v` raises `TypeError`. -/
def pyMin (a : Int) (v : Val) : Except PyErr Val :=
  match valAsNum? v with
  | some n => Except.ok (if n < a then v else Val.int a)
  | Option.none => Except.error (PyErr.typeError "unsupported operand type for min")

/-- Embeds `class Option` from `src/app/flow/block.py` (named `OptionDesc`
here because `Option` is taken in Lean).  `min`/`max` are `None` or an
integer bound. -/
structure OptionDesc where
  name : String
  type : String
  value : Val
  items : List String
  min : Option Int
  max : Option Int
deriving DecidableEq, Repr

/-- Embeds `class Block` from `src/app/flow/block.py`: per-instance input and
output port buffers, option descriptors, declared port name lists, and the
`instance_id` stamped by the compiler (Python sets it as a dynamic
attribute; it starts out absent, modelled as `""`). -/
structure Block where
  name : String
  instance_id : String
  _inputs : Dict Val
  _outputs : Dict Val
  _options : Dict OptionDesc
  _input_names : List String
  _output_names : List String
deriving DecidableEq, Repr

/-- `Block.__init__(name)`. -/
def Block.mkBlock (name : String) : Block :=
  { name := name, instance_id := "", _inputs := [], _outputs := [],
    _options := [], _input_names := [], _output_names := [] }

/-- `Block.set_interface`: write an output port buffer. -/
def Block.set_interface (b : Block) (name : String) (value : Val) : Block :=
  { b with _outputs := dictSet b._outputs name value }

/-- `Block.get_interface`: `self._inputs.get(name)` — `None` when the name
has no current input value. -/
def Block.get_interface (b : Block) (name : String) : Val :=
  match dictGet? b._inputs name with
  | some v => v
  | Option.none => Val.none

/-- `Block.add_input`. -/
def Block.add_input (b : Block) (name : String) : Block :=
  { b with _input_names := b._input_names ++ [name],
           _inputs := dictSet b._inputs name Val.none }

/-- `Block.add_output`. -/
def Block.add_output (b : Block) (name : String) : Block :=
  { b with _output_names := b._output_names ++ [name],
           _outputs := dictSet b._outputs name Val.none }

/-- `Block.add_integer_option`. -/
def Block.add_integer_option (b : Block) (name : String) (default : Int)
    (min_val max_val : Option Int) : Block :=
  let opt : OptionDesc :=
    { name := name, type := "Integer", value := Val.int default,
      items := [], min := min_val, max := max_val }
  { b with _options := dictSet b._options name opt }

/-- `Block.add_slider_option` (numeric value restricted to `Int` in this
model). -/
def Block.add_slider_option (b : Block) (name : String) (default : Int)
    (min_val max_val : Int) : Block :=
  let opt : OptionDesc :=
    { name := name, type := "Slider", value := Val.int default,
      items := [], min := some min_val, max := some max_val }
  { b with _options := dictSet b._options name opt }

/-- `Block.add_text_input_option`. -/
def Block.add_text_input_option (b : Block) (name : String) (default : String) : Block :=
  let opt : OptionDesc :=
    { name := name, type := "TextInput", value := Val.str default,
      items := [], min := Option.none, max := Option.none }
  { b with _options := dictSet b._options name opt }

/-- `Block.add_checkbox_option`. -/
def Block.add_checkbox_option (b : Block) (name : String) (default : Bool) : Block :=
  let opt : OptionDesc :=
    { name := name, type := "Checkbox", value := Val.bool default,
      items := [], min := Option.none, max := Option.none }
  { b with _options := dictSet b._options name opt }

/-- `Block.get_option`: the option's value when declared, `None` otherwise. -/
def Block.get_option (b : Block) (name : String) : Val :=
  match dictGet? b._options name with
  | some opt => opt.value
  | Option.none => Val.none

/-- `Block.set_option`: no-op when the option is not declared; numeric kinds
(`Integer`, `Number`, `Slider`) clamp via `max(min, v)` then `min(max, v)`
when the bounds are set. -/
def Block.set_option (b : Block) (name : String) (value : Val) : Except PyErr Block :=
  match dictGet? b._options name with
  | Option.none => Except.ok b
  | some opt =>
    let isNum := opt.type == "Integer" || opt.type == "Number" || opt.type == "Slider"
    let v1 : Except PyErr Val :=
      if isNum then
        match opt.min with
        | some m => pyMax m value
        | Option.none => Except.ok value
      else Except.ok value
    match v1 with
    | Except.error e => Except.error e
    | Except.ok v1 =>
      let v2 : Except PyErr Val :=
        if isNum then
          match opt.max with
          | some mx => pyMin mx v1
          | Option.none => Except.ok v1
        else Except.ok v1
      match v2 with
      | Except.error e => Except.error e
      | Except.ok v2 =>
          Except.ok { b with _options := dictSet b._options name ({ opt with value := v2 }) }

/-- The clamped value `min(max, max(min, n))` that `set_option` stores for a
numeric option, respecting which of the two bounds are set. -/
def clampedValue (opt : OptionDesc) (n : Int) : Int :=
  match opt.min, opt.max with
  | some m, some M => Min.min M (Max.max m n)
  | some m, Option.none => Max.max m n
  | Option.none, some M => Min.min M n
  | Option.none, Option.none => n

/-- An option descriptor with its value replaced (`opt.value = value`). -/
def withValue (opt : OptionDesc) (v : Val) : OptionDesc := { opt with value := v }

/-- `max(a, n)` on concrete integers. -/
theorem pyMax_int (a n : Int) : pyMax a (Val.int n) = Except.ok (Val.int (Max.max a n)) := by
  unfold pyMax valAsNum?
  by_cases hc : a < n
  · simp [hc, max_eq_right hc.le]
  · simp [hc, max_eq_left (Int.not_lt.mp hc)]

/-- `min(a, n)` on concrete integers. -/
theorem pyMin_int (a n : Int) : pyMin a (Val.int n) = Except.ok (Val.int (Min.min a n)) := by
  unfold pyMin valAsNum?
  by_cases hc : n < a
  · simp [hc, min_eq_right hc.le]
  · simp [hc, min_eq_left (Int.not_lt.mp hc)]

theorem set_option_numeric_clamps (b : Block) (name : String) (opt : OptionDesc)
    (n : Int)
    (h : dictGet? b._options name = some opt)
    (hb : (opt.type == "Integer" || opt.type == "Number" || opt.type == "Slider") = true) :
    Block.set_option b name (Val.int n) = Except.ok
      { b with _options := dictSet b._options name (withValue opt (Val.int (clampedValue opt n))) } := by
  unfold Block.set_option
  rw [h]
  simp only [hb, if_true]
  rcases hmin : opt.min with _ | m <;> rcases hmax : opt.max with _ | M <;>
    simp [pyMax_int, pyMin_int, clampedValue, withValue, hmin, hmax, min_assoc]

/-- C7: for every block option of a numeric kind (`Integer`, `Number`,
`Slider`) with `min` and/or `max` set, `set_option(name, v)` stores
`clamp(v, min, max)` — `max(min, v)` when only `min` is set, `min(max, v)`
when only `max` is set, both bounds when both are set; for non-numeric
kinds the value is stored unchanged. -/
theorem C7_option_clamping (b : Block) (name : String) (opt : OptionDesc)
    (n m M : Int) (v : Val)
    (h : dictGet? b._options name = some opt) :
    ((opt.type = "Integer" ∨ opt.type = "Number" ∨ opt.type = "Slider") →
       (opt.min = some m → opt.max = some M →
         ∃ b2, Block.set_option b name (Val.int n) = Except.ok b2 ∧
               Block.get_option b2 name = Val.int (Min.min M (Max.max m n))) ∧
       (opt.min = some m → opt.max = Option.none →
         ∃ b2, Block.set_option b name (Val.int n) = Except.ok b2 ∧
               Block.get_option b2 name = Val.int (Max.max m n)) ∧
       (opt.min = Option.none → opt.max = some M →
         ∃ b2, Block.set_option b name (Val.int n) = Except.ok b2 ∧
               Block.get_option b2 name = Val.int (Min.min M n))) ∧
    (¬(opt.type = "Integer" ∨ opt.type = "Number" ∨ opt.type = "Slider") →
       ∃ b2, Block.set_option b name v = Except.ok b2 ∧
             Block.get_option b2 name = v) := by
  constructor
  · intro hnum
    have hb : (opt.type == "Integer" || opt.type == "Number" || opt.type == "Slider") = true := by
      rcases hnum with h1 | h1 | h1 <;> simp [h1]
    refine ⟨?_, ?_, ?_⟩ <;> intro hmin hmax <;>
      refine ⟨_, set_option_numeric_clamps b name opt n h hb, ?_⟩ <;>
      simp only [Block.get_option, dictGet?_dictSet_self, withValue, clampedValue, hmin, hmax]
  · intro hnn
    have hb : (opt.type == "Integer" || opt.type == "Number" || opt.type == "Slider") = false := by
      simp only [not_or] at hnn
      simp [hnn.1, hnn.2.1, hnn.2.2]
    refine ⟨{ b with _options := dictSet b._options name (withValue opt v) }, ?_, ?_⟩
    · unfold Block.set_option
      rw [h]
      simp [hb, withValue]
    · simp only [Block.get_option, dictGet?_dictSet_self, withValue]

/-- Witness for C7 at a concrete block: an `Integer` option with bounds
`[0, 10]` clamps `42` to `10`; a `TextInput` option stores a string
unchanged. -/
theorem C7_option_clamping_witness :
    (dictGet? ((Block.mkBlock "t").add_integer_option "k" 0 (some 0) (some 10))._options "k"
       = some { name := "k", type := "Integer", value := Val.int 0,
                items := [], min := some 0, max := some 10 }) ∧
    (∃ b2, Block.set_option ((Block.mkBlock "t").add_integer_option "k" 0 (some 0) (some 10))
             "k" (Val.int 42) = Except.ok b2 ∧
           Block.get_option b2 "k" = Val.int (Min.min 10 (Max.max 0 42))) := by
  refine ⟨by decide, ?_⟩
  exact ((C7_option_clamping ((Block.mkBlock "t").add_integer_option "k" 0 (some 0) (some 10))
    "k" { name := "k", type := "Integer", value := Val.int 0,
          items := [], min := some 0, max := some 10 }
    42 0 10 (Val.int 42) (by decide)).1 (Or.inl rfl)).1 rfl rfl

/-- C10: block accessors are total over arbitrary names: for a string not
naming a declared option, `get_option` returns `None` and `set_option` is a
no-op returning the block unchanged (no exception); for a name with no
current input value, `get_interface` returns `None`. -/
theorem C10_block_accessors_total (b : Block) (n1 n2 : String) (v : Val)
    (h1 : dictGet? b._options n1 = Option.none)
    (h2 : dictGet? b._inputs n2 = Option.none) :
    Block.get_option b n1 = Val.none ∧
    Block.set_option b n1 v = Except.ok b ∧
    Block.get_interface b n2 = Val.none := by
  refine ⟨?_, ?_, ?_⟩
  · unfold Block.get_option
    rw [h1]
  · unfold Block.set_option
    rw [h1]
  · unfold Block.get_interface
    rw [h2]

/-- Witness for C10 on a concrete fresh block and undeclared names. -/
theorem C10_block_accessors_total_witness :
    Block.get_option (Block.mkBlock "t") "missing" = Val.none ∧
    Block.set_option (Block.mkBlock "t") "missing" (Val.int 5)
      = Except.ok (Block.mkBlock "t") ∧
    Block.get_interface (Block.mkBlock "t") "absent" = Val.none :=
  C10_block_accessors_total (Block.mkBlock "t") "missing" "absent" (Val.int 5) rfl rfl

/-- A port entry of `node.inputs` / `node.outputs` in the wire schema:
`{id: string, value?: any}`.  `info.get("value")` yields Python `None` when
the value is absent, so an absent value is `Val.none`. -/
structure PortInfo where
  id : String
  value : Val
deriving DecidableEq, Repr

/-- A schema node `{id, type, inputs, outputs}` (title/position are never
read by `set_schema`). -/
structure NodeData where
  id : String
  type : String
  inputs : Dict PortInfo
  outputs : Dict PortInfo
deriving DecidableEq, Repr

/-- A schema connection `{from: portID, to: portID}`; the fields are named
`fromPort`/`toPort` because `from` is reserved in Lean. -/
structure Conn where
  fromPort : String
  toPort : String
deriving DecidableEq, Repr

/-- A schema document: `{nodes, connections}`. -/
structure Schema where
  nodes : List NodeData
  connections : List Conn
deriving DecidableEq, Repr

/-- A directed edge of the temporary `MultiDiGraph`: `src → dst` carrying
the source output port name (`out_p`) and destination input port name
(`in_p`). -/
structure Edge where
  src : String
  dst : String
  out_p : String
  in_p : String
deriving DecidableEq, Repr

/-- One compiled step `(current_instance, transfers)`.  Instances are named
by instance id: the Python plan holds object references into
`self.instances`, which is keyed by exactly these ids. -/
structure Step where
  nid : String
  transfers : List (String × String × String)
deriving DecidableEq, Repr

/-- The observable state of a `ComputeEngine`. -/
structure EngineState where
  block_templates : Dict Block
  instances : Dict Block
  _compiled_sequence : List Step
deriving DecidableEq, Repr

/-- `ComputeEngine.__init__`. -/
def EngineState.fresh : EngineState :=
  { block_templates := [], instances := [], _compiled_sequence := [] }

/-- `ComputeEngine.register_blocks`. -/
def registerBlocks (st : EngineState) (blocks : List Block) : EngineState :=
  { st with block_templates :=
      blocks.foldl (fun d b => dictSet d b.name b) st.block_templates }

/-- The inner loop of phase 1 of `set_schema` over `node_data["inputs"]`:
keys naming a declared option are applied via `set_option` (which may
raise); other keys register the port id in `port_to_node` as
`(node_id, port_name)`. -/
def processInputs (nid : String) :
    Block → Dict (String × String) → List (String × PortInfo) →
    Block × Dict (String × String) × Option PyErr
  | inst, p2n, [] => (inst, p2n, Option.none)
  | inst, p2n, (key, info) :: rest =>
    if dictMem inst._options key then
      match Block.set_option inst key info.value with
      | Except.error e => (inst, p2n, some e)
      | Except.ok inst2 => processInputs nid inst2 p2n rest
    else
      processInputs nid inst (dictSet p2n info.id (nid, key)) rest

/-- The loop of phase 1 over `node_data["outputs"]`: register every output
port id. -/
def processOutputs (nid : String) :
    Dict (String × String) → List (String × PortInfo) → Dict (String × String)
  | p2n, [] => p2n
  | p2n, (key, info) :: rest => processOutputs nid (dictSet p2n info.id (nid, key)) rest

/-- Phase 1 of `set_schema` (node instantiation): for each node whose type
is registered, deep-copy the template, stamp `instance_id`, store it in
`instances`, add the node id to the graph, apply option assignments and
register ports.  Unknown types are skipped (`continue`) without logging.
Returns the instances map, the graph node list, `port_to_node`, and the
first raised error if any — with the maps as mutated up to that point,
matching Python's in-place updates. -/
def instantiateNodes (templates : Dict Block) :
    List NodeData → Dict Block → List String → Dict (String × String) →
    Dict Block × List String × Dict (String × String) × Option PyErr
  | [], insts, gnodes, p2n => (insts, gnodes, p2n, Option.none)
  | node :: rest, insts, gnodes, p2n =>
    match dictGet? templates node.type with
    | Option.none => instantiateNodes templates rest insts gnodes p2n
    | some template =>
      let inst0 : Block := { template with instance_id := node.id }
      let gnodes1 := if gnodes.contains node.id then gnodes else gnodes ++ [node.id]
      match processInputs node.id inst0 p2n node.inputs with
      | (inst1, p2n1, some e) => (dictSet insts node.id inst1, gnodes1, p2n1, some e)
      | (inst1, p2n1, Option.none) =>
        let p2n2 := processOutputs node.id p2n1 node.outputs
        instantiateNodes templates rest (dictSet insts node.id inst1) gnodes1 p2n2

/-- Phase 2 of `set_schema`: resolve each connection's endpoints through
`port_to_node`; when both resolve, add a multigraph edge (parallel edges
are preserved — `MultiDiGraph.add_edge` never overwrites); otherwise drop
the connection silently. -/
def buildEdges (p2n : Dict (String × String)) : List Conn → List Edge
  | [] => []
  | c :: rest =>
    match dictGet? p2n c.fromPort, dictGet? p2n c.toPort with
    | some s, some d =>
        { src := s.1, dst := d.1, out_p := s.2, in_p := d.2 } :: buildEdges p2n rest
    | _, _ => buildEdges p2n rest

/-- Does some edge of `edges` lead from a node still in `remaining` into
`n`?  (Negated in-degree-zero test of Kahn's algorithm.) -/
def noIncoming (edges : List Edge) (remaining : List String) (n : String) : Bool :=
  !(edges.any (fun e => e.dst == n && remaining.contains e.src))

/-- Layered Kahn elimination: repeatedly remove every node with no incoming
edge from the remaining set.  Returns `(order, leftover)`. -/
def kahnAux (edges : List Edge) : Nat → List String → List String × List String
  | 0, rem => ([], rem)
  | fuel + 1, rem =>
    let ready := rem.filter (noIncoming edges rem)
    if ready.isEmpty then ([], rem)
    else
      let next := rem.filter (fun n => !(noIncoming edges rem n))
      let res := kahnAux edges fuel next
      (ready ++ res.1, res.2)

/-- Phases 3–4's graph processing: `leftover` is nonempty exactly when a
cycle exists (`nx.find_cycle` finds one iff some node can never reach
in-degree zero), and `order` is then a topological order of all graph
nodes.  The tie-break order of `nx.topological_sort` is abstracted here;
the spec leaves it unspecified and no claim depends on it. -/
def kahn (gnodes : List String) (edges : List Edge) : List String × List String :=
  kahnAux edges gnodes.length gnodes

/-- Phase 4 of `set_schema`: for each node in execution order, collect its
incoming edges as transfer tuples `(source_instance, out_p, in_p)`.
(`MultiDiGraph.in_edges` enumerates parallel edges grouped by predecessor;
edge-insertion order is used here, and no claim depends on the order of
transfers within one step.) -/
def emitSteps (edges : List Edge) (order : List String) : List Step :=
  order.map (fun n =>
    { nid := n,
      transfers := (edges.filter (fun e => e.dst == n)).map
        (fun e => (e.src, e.out_p, e.in_p)) })

/-- Phase 1 of `set_schema` on an engine: `self.instances = {}` then the
node loop, starting from empty graph and `port_to_node`. -/
def phase1 (st : EngineState) (schema : Schema) :
    Dict Block × List String × Dict (String × String) × Option PyErr :=
  instantiateNodes st.block_templates schema.nodes [] [] []

/-- `ComputeEngine.set_schema`, with Python's mutate-then-raise semantics:
the first component is the engine state after the call even when an error
is raised.  `self.instances` is reassigned at entry and filled during
phase 1; `self._compiled_sequence` is only rebuilt after cycle detection
passes, so a cycle error (`ValueError("Flowchart contains cycles")`) leaves
the previous compiled sequence in place next to the new instances. -/
def setSchema (st : EngineState) (schema : Schema) : EngineState × Option PyErr :=
  match phase1 st schema with
  | (insts, _, _, some e) => ({ st with instances := insts }, some e)
  | (insts, gnodes, p2n, Option.none) =>
    let edges := buildEdges p2n schema.connections
    let k := kahn gnodes edges
    if k.2.isEmpty then
      ({ st with instances := insts,
                 _compiled_sequence := emitSteps edges k.1 }, Option.none)
    else
      ({ st with instances := insts }, some (PyErr.valueError "Flowchart contains cycles"))

/-- The messages `set_schema` sends through `self.log`: the entry banner
always, and the completion banner only when no error is raised.  No other
`self.log` call occurs inside `set_schema` — in particular nothing is
logged when an unknown-type node is skipped or a connection is dropped. -/
def setSchemaLogs (st : EngineState) (schema : Schema) : List String :=
  match (setSchema st schema).2 with
  | some _ => ["[Engine] 🛠️  正在修复预编译逻辑以支持多重连接..."]
  | Option.none => ["[Engine] 🛠️  正在修复预编译逻辑以支持多重连接...",
                    "[Engine] ✅ 编译完成。执行序列中包含多重数据流转指令。"]

theorem instantiateNodes_filter (templates : Dict Block) (nodes : List NodeData) :
    ∀ insts gnodes p2n,
      instantiateNodes templates
          (nodes.filter (fun n => (dictGet? templates n.type).isSome)) insts gnodes p2n
        = instantiateNodes templates nodes insts gnodes p2n := by
  induction nodes with
  | nil => intro insts gnodes p2n; rfl
  | cons node rest ih =>
    intro insts gnodes p2n
    rcases ht : dictGet? templates node.type with _ | tmpl
    · rw [List.filter_cons_of_neg (by simp [ht])]
      conv_rhs => unfold instantiateNodes
      rw [ht]
      exact ih insts gnodes p2n
    · rw [List.filter_cons_of_pos (by simp [ht])]
      conv_lhs => unfold instantiateNodes
      conv_rhs => unfold instantiateNodes
      rw [ht]
      dsimp only
      rcases hpi : processInputs node.id { tmpl with instance_id := node.id } p2n node.inputs
        with ⟨inst1, p2n1, e?⟩
      rcases e? with _ | e
      · dsimp only
        exact ih _ _ _
      · rfl

/-- C8 (amended): a node whose type is not registered contributes nothing:
`set_schema` behaves exactly as on the schema with every unknown-typed node
removed — same resulting engine state, same raised error if any.  (The
claim's parenthetical "a warning is logged for the skipped node" is false —
see the counterexample on the log trace.) -/
theorem C8_unknown_nodes_dropped (st : EngineState) (schema : Schema) :
    setSchema st
        { nodes := schema.nodes.filter (fun n => (dictGet? st.block_templates n.type).isSome),
          connections := schema.connections }
      = setSchema st schema := by
  unfold setSchema phase1
  rw [instantiateNodes_filter]

/-- Example template: a source block with one output port `O`. -/
def constB : Block := Block.add_output (Block.mkBlock "Const") "O"

/-- Example template: a pass-through block with input port `I` and output
port `O`. -/
def addB : Block := Block.add_output (Block.add_input (Block.mkBlock "AddOne") "I") "O"

/-- An engine with the two example templates registered. -/
def exEngine : EngineState := registerBlocks EngineState.fresh [constB, addB]

/-- Schema with one known node and one node of unregistered type
`DoesNotExist`. -/
def schUnknown : Schema :=
  { nodes := [ { id := "n1", type := "Const", inputs := [],
                 outputs := [("O", { id := "p1", value := Val.none })] },
               { id := "n2", type := "DoesNotExist", inputs := [], outputs := [] } ],
    connections := [] }

/-- Counterexample to C8's "(a warning is logged for the skipped node)":
the full log trace of `set_schema` on a schema containing an unknown-typed
node is exactly the entry banner and the completion banner — no diagnostic
mentions the skipped node, which nevertheless yields no instance and no
step while compilation succeeds. -/
theorem C8_no_warning_counterexample :
    setSchemaLogs exEngine schUnknown
      = ["[Engine] 🛠️  正在修复预编译逻辑以支持多重连接...",
         "[Engine] ✅ 编译完成。执行序列中包含多重数据流转指令。"] ∧
    (setSchema exEngine schUnknown).2 = Option.none ∧
    dictGet? (setSchema exEngine schUnknown).1.instances "n2" = Option.none ∧
    (setSchema exEngine schUnknown).1._compiled_sequence.all (fun s => s.nid ≠ "n2") := by
  decide

/-- Some edge of `edges` links `a` to `b`. -/
def hasEdge (edges : List Edge) (a b : String) : Bool :=
  edges.any (fun e => e.src == a && e.dst == b)

/-- Consecutive elements of the list are linked by an edge. -/
def chainLinked (edges : List Edge) : List String → Bool
  | [] => true
  | [_] => true
  | a :: b :: rest => hasEdge edges a b && chainLinked edges (b :: rest)

/-- `c` is a nonempty cycle of the graph: consecutive elements are linked
and the last element links back to the first. -/
def isCycle (edges : List Edge) : List String → Bool
  | [] => false
  | a :: rest => chainLinked edges (a :: rest) &&
      hasEdge edges ((a :: rest).getLast (List.cons_ne_nil a rest)) a

theorem chainLinked_pred (edges : List Edge) :
    ∀ (rest : List String) (a : String), chainLinked edges (a :: rest) = true →
      ∀ x ∈ rest, ∃ p ∈ a :: rest, hasEdge edges p x = true := by
  intro rest
  induction rest with
  | nil => intro a _ x hx; simp at hx
  | cons b rest2 ih =>
    intro a hch x hx
    have hch' : hasEdge edges a b = true ∧ chainLinked edges (b :: rest2) = true := by
      simpa [chainLinked, Bool.and_eq_true] using hch
    rcases List.mem_cons.mp hx with rfl | hx2
    · exact ⟨a, List.mem_cons_self _ _, hch'.1⟩
    · obtain ⟨p, hp, he⟩ := ih b hch'.2 x hx2
      exact ⟨p, List.mem_cons_of_mem a hp, he⟩

theorem isCycle_pred (edges : List Edge) (c : List String) (h : isCycle edges c = true) :
    ∀ x ∈ c, ∃ p ∈ c, hasEdge edges p x = true := by
  rcases c with _ | ⟨a, rest⟩
  · simp [isCycle] at h
  · simp only [isCycle, Bool.and_eq_true] at h
    intro x hx
    rcases List.mem_cons.mp hx with hxa | hx2
    · refine ⟨(a :: rest).getLast (List.cons_ne_nil a rest), List.getLast_mem _, ?_⟩
      rw [hxa]
      exact h.2
    · exact chainLinked_pred edges rest a h.1 x hx2

theorem dictGet?_mem {α : Type} (d : Dict α) (k : String) (v : α)
    (h : dictGet? d k = some v) : (k, v) ∈ d := by
  induction d with
  | nil => simp [dictGet?] at h
  | cons p d ih =>
    unfold dictGet? at h
    by_cases hp : p.1 == k
    · rw [if_pos hp] at h
      have hk : p.1 = k := by simpa using hp
      have hv : p.2 = v := by simpa using h
      have : (k, v) = p := by
        cases p
        simp only at hk hv
        rw [hk, hv]
      rw [this]
      exact List.mem_cons_self _ _
    · rw [if_neg hp] at h
      exact List.mem_cons_of_mem _ (ih h)

theorem mem_dictSet {α : Type} (d : Dict α) (k : String) (v : α) :
    ∀ q ∈ dictSet d k v, q = (k, v) ∨ q ∈ d := by
  induction d with
  | nil =>
    intro q hq
    simp only [dictSet, List.mem_singleton] at hq
    left; exact hq
  | cons p d ih =>
    intro q hq
    unfold dictSet at hq
    by_cases hp : p.1 == k
    · rw [if_pos hp] at hq
      rcases List.mem_cons.mp hq with rfl | h2
      · left; rfl
      · right; exact List.mem_cons_of_mem _ h2
    · rw [if_neg hp] at hq
      rcases List.mem_cons.mp hq with rfl | h2
      · right; exact List.mem_cons_self _ _
      · rcases ih q h2 with h3 | h3
        · left; exact h3
        · right; exact List.mem_cons_of_mem _ h3

theorem processInputs_p2n (nid : String) :
    ∀ (entries : List (String × PortInfo)) (inst : Block) (p2n : Dict (String × String))
      (inst2 : Block) (p2n2 : Dict (String × String)) (err : Option PyErr),
      processInputs nid inst p2n entries = (inst2, p2n2, err) →
      ∀ q ∈ p2n2, q.2.1 = nid ∨ q ∈ p2n := by
  intro entries
  induction entries with
  | nil =>
    intro inst p2n inst2 p2n2 err h q hq
    simp only [processInputs, Prod.mk.injEq] at h
    obtain ⟨-, h2, -⟩ := h
    right
    rw [← h2] at hq
    exact hq
  | cons entry rest ih =>
    obtain ⟨key, info⟩ := entry
    intro inst p2n inst2 p2n2 err h q hq
    unfold processInputs at h
    by_cases hm : dictMem inst._options key
    · rw [if_pos hm] at h
      rcases hso : Block.set_option inst key info.value with e | inst3 <;> rw [hso] at h
      · simp only [Prod.mk.injEq] at h
        obtain ⟨-, h2, -⟩ := h
        right
        rw [← h2] at hq
        exact hq
      · exact ih _ _ _ _ _ h q hq
    · rw [if_neg hm] at h
      rcases ih _ _ _ _ _ h q hq with h1 | h1
      · left; exact h1
      · rcases mem_dictSet _ _ _ q h1 with h2 | h2
        · left; rw [h2]
        · right; exact h2

theorem processOutputs_p2n (nid : String) :
    ∀ (entries : List (String × PortInfo)) (p2n : Dict (String × String)),
      ∀ q ∈ processOutputs nid p2n entries, q.2.1 = nid ∨ q ∈ p2n := by
  intro entries
  induction entries with
  | nil => intro p2n q hq; exact Or.inr hq
  | cons entry rest ih =>
    obtain ⟨key, info⟩ := entry
    intro p2n q hq
    unfold processOutputs at hq
    rcases ih _ q hq with h1 | h1
    · left; exact h1
    · rcases mem_dictSet _ _ _ q h1 with h2 | h2
      · left; rw [h2]
      · right; exact h2

theorem instantiateNodes_inv (templates : Dict Block) :
    ∀ (nodes : List NodeData) (insts : Dict Block) (gnodes : List String)
      (p2n : Dict (String × String)) (insts2 : Dict Block) (gnodes2 : List String)
      (p2n2 : Dict (String × String)) (err : Option PyErr),
      instantiateNodes templates nodes insts gnodes p2n = (insts2, gnodes2, p2n2, err) →
      (∀ q ∈ p2n, (q.2.1 : String) ∈ gnodes) →
      (∀ x ∈ gnodes, x ∈ gnodes2) ∧ (∀ q ∈ p2n2, q.2.1 ∈ gnodes2) := by
  intro nodes
  induction nodes with
  | nil =>
    intro insts gnodes p2n insts2 gnodes2 p2n2 err h hinv
    simp only [instantiateNodes, Prod.mk.injEq] at h
    obtain ⟨-, h2, h3, -⟩ := h
    rw [← h2, ← h3]
    exact ⟨fun x hx => hx, hinv⟩
  | cons node rest ih =>
    intro insts gnodes p2n insts2 gnodes2 p2n2 err h hinv
    unfold instantiateNodes at h
    rcases ht : dictGet? templates node.type with _ | tmpl <;> rw [ht] at h
    · exact ih _ _ _ _ _ _ _ h hinv
    · dsimp only at h
      have hmono1 : ∀ x ∈ gnodes,
          x ∈ (if gnodes.contains node.id = true then gnodes else gnodes ++ [node.id]) := by
        intro x hx
        by_cases hcont : gnodes.contains node.id = true
        · rw [if_pos hcont]; exact hx
        · rw [if_neg hcont]; exact List.mem_append_left _ hx
      have hmem1 : node.id ∈
          (if gnodes.contains node.id = true then gnodes else gnodes ++ [node.id]) := by
        by_cases hcont : gnodes.contains node.id = true
        · rw [if_pos hcont]
          simpa using hcont
        · rw [if_neg hcont]
          exact List.mem_append_right _ (List.mem_singleton.mpr rfl)
      rcases hpi : processInputs node.id { tmpl with instance_id := node.id } p2n node.inputs
        with ⟨inst1, p2n1, e?⟩
      rw [hpi] at h
      have hp2n1 : ∀ q ∈ p2n1,
          q.2.1 ∈ (if gnodes.contains node.id = true then gnodes else gnodes ++ [node.id]) := by
        intro q hq
        rcases processInputs_p2n node.id node.inputs _ _ _ _ _ hpi q hq with h1 | h1
        · rw [h1]; exact hmem1
        · exact hmono1 _ (hinv q h1)
      rcases e? with _ | e
      · dsimp only at h
        have hp2n2 : ∀ q ∈ processOutputs node.id p2n1 node.outputs,
            q.2.1 ∈ (if gnodes.contains node.id = true then gnodes else gnodes ++ [node.id]) := by
          intro q hq
          rcases processOutputs_p2n node.id node.outputs _ q hq with h1 | h1
          · rw [h1]; exact hmem1
          · exact hp2n1 q h1
        obtain ⟨hm2, hi2⟩ := ih _ _ _ _ _ _ _ h hp2n2
        exact ⟨fun x hx => hm2 _ (hmono1 x hx), hi2⟩
      · dsimp only at h
        simp only [Prod.mk.injEq] at h
        obtain ⟨-, hg, hpp, -⟩ := h
        rw [← hg, ← hpp]
        exact ⟨hmono1, hp2n1⟩

theorem buildEdges_endpoints (p2n : Dict (String × String)) (gn : List String)
    (hp2n : ∀ q ∈ p2n, (q.2.1 : String) ∈ gn) :
    ∀ (conns : List Conn), ∀ e ∈ buildEdges p2n conns, e.src ∈ gn ∧ e.dst ∈ gn := by
  intro conns
  induction conns with
  | nil => intro e he; simp [buildEdges] at he
  | cons c rest ih =>
    intro e he
    unfold buildEdges at he
    rcases hf : dictGet? p2n c.fromPort with _ | s <;>
      rcases htt : dictGet? p2n c.toPort with _ | d <;>
      rw [hf, htt] at he
    · exact ih e he
    · exact ih e he
    · exact ih e he
    · rcases List.mem_cons.mp he with rfl | h2
      · exact ⟨hp2n _ (dictGet?_mem _ _ _ hf), hp2n _ (dictGet?_mem _ _ _ htt)⟩
      · exact ih e h2

theorem kahnAux_stuck (edges : List Edge) (C : List String) (x0 : String) (hx0 : x0 ∈ C)
    (hpred : ∀ x ∈ C, ∃ p ∈ C, hasEdge edges p x = true) :
    ∀ (fuel : Nat) (rem : List String), (∀ x ∈ C, x ∈ rem) →
      (kahnAux edges fuel rem).2 ≠ [] := by
  intro fuel
  induction fuel with
  | zero =>
    intro rem hsub
    exact List.ne_nil_of_mem (hsub x0 hx0)
  | succ fuel ih =>
    intro rem hsub
    unfold kahnAux
    dsimp only
    by_cases hr : (rem.filter (noIncoming edges rem)).isEmpty
    · rw [if_pos hr]
      exact List.ne_nil_of_mem (hsub x0 hx0)
    · rw [if_neg hr]
      dsimp only
      apply ih
      intro x hx
      rw [List.mem_filter]
      refine ⟨hsub x hx, ?_⟩
      obtain ⟨p, hp, he⟩ := hpred x hx
      obtain ⟨e, hmem, hee⟩ := List.any_eq_true.mp he
      have hee' : e.src = p ∧ e.dst = x := by simpa using hee
      unfold noIncoming
      simp only [Bool.not_not]
      apply List.any_eq_true.mpr
      refine ⟨e, hmem, ?_⟩
      simp only [Bool.and_eq_true, beq_iff_eq]
      refine ⟨hee'.2, ?_⟩
      have hsrc : e.src ∈ rem := by
        rw [hee'.1]
        exact hsub p hp
      simpa using hsrc

/-- C2 (amended): when the resolved instance graph of the schema contains a
cycle (and phase 1 raised no error), `set_schema` raises the fixed error
`ValueError("Flowchart contains cycles")` — which does not name the
cycle — and leaves the engine half-initialized: `self.instances` holds the
freshly instantiated nodes of the failed schema while
`self._compiled_sequence` keeps its previous value. -/
theorem C2_cycle_error_state (st : EngineState) (schema : Schema)
    (insts : Dict Block) (gnodes : List String) (p2n : Dict (String × String))
    (hp : phase1 st schema = (insts, gnodes, p2n, Option.none))
    (c : List String) (hc : isCycle (buildEdges p2n schema.connections) c = true) :
    setSchema st schema
      = ({ st with instances := insts }, some (PyErr.valueError "Flowchart contains cycles")) := by
  unfold setSchema
  rw [hp]
  dsimp only
  have hne : (kahn gnodes (buildEdges p2n schema.connections)).2 ≠ [] := by
    have hx0 : ∃ x, x ∈ c := by
      rcases c with _ | ⟨a, rest⟩
      · simp [isCycle] at hc
      · exact ⟨a, List.mem_cons_self _ _⟩
    obtain ⟨x0, hx0⟩ := hx0
    have hpred := isCycle_pred _ _ hc
    have hinv := instantiateNodes_inv st.block_templates schema.nodes [] [] []
      insts gnodes p2n Option.none hp (by intro q hq; simp at hq)
    have hend := buildEdges_endpoints p2n gnodes hinv.2 schema.connections
    apply kahnAux_stuck _ c x0 hx0 hpred
    intro x hx
    obtain ⟨p, hp2, he⟩ := hpred x hx
    obtain ⟨e, hmem, hee⟩ := List.any_eq_true.mp he
    have hee' : e.src = p ∧ e.dst = x := by simpa using hee
    have := (hend e hmem).2
    rw [hee'.2] at this
    exact this
  rw [if_neg (by simpa using hne)]

/-- Schema whose two `AddOne` nodes feed each other: `a.O → b.I` and
`b.O → a.I` — a two-node cycle. -/
def schCycle : Schema :=
  { nodes := [ { id := "a", type := "AddOne",
                 inputs := [("I", { id := "ai", value := Val.none })],
                 outputs := [("O", { id := "ao", value := Val.none })] },
               { id := "b", type := "AddOne",
                 inputs := [("I", { id := "bi", value := Val.none })],
                 outputs := [("O", { id := "bo", value := Val.none })] } ],
    connections := [ { fromPort := "ao", toPort := "bi" },
                     { fromPort := "bo", toPort := "ai" } ] }

/-- Counterexample to C2 as stated: on a cyclic schema `set_schema` raises
the fixed message `ValueError("Flowchart contains cycles")`, but the
engine's observable state is NOT the same as before the call — the
instances map now holds the failed schema's freshly instantiated nodes. -/
theorem C2_state_changed_counterexample :
    (setSchema exEngine schCycle).2 = some (PyErr.valueError "Flowchart contains cycles") ∧
    (setSchema exEngine schCycle).1.instances ≠ exEngine.instances := by
  decide

/-- Witness for C2 (amended) on the concrete cyclic schema. -/
theorem C2_cycle_error_state_witness :
    phase1 exEngine schCycle
      = ((phase1 exEngine schCycle).1, (phase1 exEngine schCycle).2.1,
         (phase1 exEngine schCycle).2.2.1, Option.none) ∧
    isCycle (buildEdges (phase1 exEngine schCycle).2.2.1 schCycle.connections)
        ["a", "b"] = true ∧
    setSchema exEngine schCycle
      = ({ exEngine with instances := (phase1 exEngine schCycle).1 },
         some (PyErr.valueError "Flowchart contains cycles")) :=
  ⟨by decide, by decide,
   C2_cycle_error_state exEngine schCycle (phase1 exEngine schCycle).1
     (phase1 exEngine schCycle).2.1 (phase1 exEngine schCycle).2.2.1
     (by decide) ["a", "b"] (by decide)⟩

theorem kahnAux_perm (edges : List Edge) :
    ∀ (fuel : Nat) (rem : List String),
      ((kahnAux edges fuel rem).1 ++ (kahnAux edges fuel rem).2).Perm rem := by
  intro fuel
  induction fuel with
  | zero => intro rem; simp [kahnAux]
  | succ fuel ih =>
    intro rem
    unfold kahnAux
    dsimp only
    by_cases hr : (rem.filter (noIncoming edges rem)).isEmpty
    · rw [if_pos hr]
      simp
    · rw [if_neg hr]
      dsimp only
      refine List.Perm.trans ?_ (List.filter_append_perm (noIncoming edges rem) rem)
      rw [List.append_assoc]
      exact List.Perm.append_left _ (ih _)

theorem kahnAux_order (edges : List Edge) :
    ∀ (fuel : Nat) (rem : List String), (kahnAux edges fuel rem).2 = [] →
      ∀ e ∈ edges, e.src ∈ rem → e.dst ∈ rem →
        List.indexOf e.src (kahnAux edges fuel rem).1
          < List.indexOf e.dst (kahnAux edges fuel rem).1 := by
  intro fuel
  induction fuel with
  | zero =>
    intro rem hleft e _ hsrc _
    simp only [kahnAux] at hleft
    rw [hleft] at hsrc
    simp at hsrc
  | succ fuel ih =>
    intro rem hleft e he hsrc hdst
    unfold kahnAux at hleft ⊢
    dsimp only at hleft ⊢
    by_cases hr : (rem.filter (noIncoming edges rem)).isEmpty
    · rw [if_pos hr] at hleft ⊢
      dsimp only at hleft
      rw [hleft] at hsrc
      simp at hsrc
    · rw [if_neg hr] at hleft ⊢
      dsimp only at hleft ⊢
      have hdstNI : noIncoming edges rem e.dst = false := by
        have hany : (edges.any fun e2 => e2.dst == e.dst && rem.contains e2.src) = true := by
          apply List.any_eq_true.mpr
          refine ⟨e, he, ?_⟩
          have hcont : rem.contains e.src = true := by simpa using hsrc
          simp [hcont, hsrc]
        unfold noIncoming
        rw [hany]
        rfl
      have hdstNotReady : e.dst ∉ rem.filter (noIncoming edges rem) := by
        intro hmem
        rw [List.mem_filter, hdstNI] at hmem
        simp at hmem
      have hdstNext : e.dst ∈ rem.filter (fun n => !(noIncoming edges rem n)) := by
        rw [List.mem_filter]
        exact ⟨hdst, by rw [hdstNI]; rfl⟩
      by_cases hsr : e.src ∈ rem.filter (noIncoming edges rem)
      · rw [List.indexOf_append_of_mem hsr, List.indexOf_append_of_not_mem hdstNotReady]
        exact Nat.lt_of_lt_of_le (List.indexOf_lt_length.mpr hsr) (Nat.le_add_right _ _)
      · have hsrcNext : e.src ∈ rem.filter (fun n => !(noIncoming edges rem n)) := by
          rw [List.mem_filter]
          refine ⟨hsrc, ?_⟩
          by_cases hni : noIncoming edges rem e.src = true
          · exact absurd (List.mem_filter.mpr ⟨hsrc, hni⟩) hsr
          · rw [Bool.not_eq_true] at hni
            rw [hni]
            rfl
        rw [List.indexOf_append_of_not_mem hsr, List.indexOf_append_of_not_mem hdstNotReady]
        have := ih _ hleft e he hsrcNext hdstNext
        omega

theorem instantiateNodes_gnodes_nodup (templates : Dict Block) :
    ∀ (nodes : List NodeData) (insts : Dict Block) (gnodes : List String)
      (p2n : Dict (String × String)) (insts2 : Dict Block) (gnodes2 : List String)
      (p2n2 : Dict (String × String)) (err : Option PyErr),
      instantiateNodes templates nodes insts gnodes p2n = (insts2, gnodes2, p2n2, err) →
      gnodes.Nodup → gnodes2.Nodup := by
  intro nodes
  induction nodes with
  | nil =>
    intro insts gnodes p2n insts2 gnodes2 p2n2 err h hnd
    simp only [instantiateNodes, Prod.mk.injEq] at h
    obtain ⟨-, h2, -, -⟩ := h
    rw [← h2]
    exact hnd
  | cons node rest ih =>
    intro insts gnodes p2n insts2 gnodes2 p2n2 err h hnd
    unfold instantiateNodes at h
    rcases ht : dictGet? templates node.type with _ | tmpl <;> rw [ht] at h
    · exact ih _ _ _ _ _ _ _ h hnd
    · dsimp only at h
      have hnd1 : (if gnodes.contains node.id = true then gnodes
          else gnodes ++ [node.id]).Nodup := by
        by_cases hcont : gnodes.contains node.id = true
        · rw [if_pos hcont]; exact hnd
        · rw [if_neg hcont]
          refine List.Nodup.append hnd (List.nodup_singleton _) ?_
          intro x hx hx2
          rw [List.mem_singleton] at hx2
          rw [hx2] at hx
          exact hcont (by simpa using hx)
      rcases hpi : processInputs node.id { tmpl with instance_id := node.id } p2n node.inputs
        with ⟨inst1, p2n1, e?⟩
      rw [hpi] at h
      rcases e? with _ | e
      · dsimp only at h
        exact ih _ _ _ _ _ _ _ h hnd1
      · dsimp only at h
        simp only [Prod.mk.injEq] at h
        obtain ⟨-, hg, -, -⟩ := h
        rw [← hg]
        exact hnd1

/-- Successful `set_schema` decomposed: the phase-1 results, the built
edges, and the compiled sequence emitted over the topological order. -/
theorem setSchema_ok_shape (st : EngineState) (schema : Schema) (st2 : EngineState)
    (h : setSchema st schema = (st2, Option.none)) :
    ∃ insts gnodes p2n,
      phase1 st schema = (insts, gnodes, p2n, Option.none) ∧
      (kahn gnodes (buildEdges p2n schema.connections)).2 = [] ∧
      st2 = { st with instances := insts,
                      _compiled_sequence :=
                        emitSteps (buildEdges p2n schema.connections)
                          (kahn gnodes (buildEdges p2n schema.connections)).1 } := by
  unfold setSchema at h
  rcases hp : phase1 st schema with ⟨insts, gnodes, p2n, e?⟩
  rw [hp] at h
  rcases e? with _ | e
  · dsimp only at h
    by_cases hk : (kahn gnodes (buildEdges p2n schema.connections)).2.isEmpty
    · rw [if_pos hk] at h
      simp only [Prod.mk.injEq] at h
      exact ⟨insts, gnodes, p2n, rfl, by simpa using hk, h.1.symm⟩
    · rw [if_neg hk] at h
      simp at h
  · simp at h

/-- C3: in every successful compilation, every step appears strictly after
all steps producing its transfers' source instances: for each transfer
`(src, out_p, in_p)` of the step at position `i`, some position `j < i`
holds the step whose block is `src`. -/
theorem C3_topological_order (st : EngineState) (schema : Schema) (st2 : EngineState)
    (h : setSchema st schema = (st2, Option.none)) :
    ∀ (i : Nat) (hi : i < st2._compiled_sequence.length),
      ∀ t ∈ (st2._compiled_sequence.get ⟨i, hi⟩).transfers,
        ∃ j, ∃ hj : j < st2._compiled_sequence.length,
          j < i ∧ (st2._compiled_sequence.get ⟨j, hj⟩).nid = t.1 := by
  obtain ⟨insts, gnodes, p2n, hp, hk, hst2⟩ := setSchema_ok_shape st schema st2 h
  have hinv := instantiateNodes_inv st.block_templates schema.nodes [] [] []
    insts gnodes p2n Option.none hp (by intro q hq; simp at hq)
  have hnd : gnodes.Nodup := instantiateNodes_gnodes_nodup st.block_templates schema.nodes
    [] [] [] insts gnodes p2n Option.none hp List.nodup_nil
  have hend := buildEdges_endpoints p2n gnodes hinv.2 schema.connections
  have hperm : ((kahn gnodes (buildEdges p2n schema.connections)).1).Perm gnodes := by
    have := kahnAux_perm (buildEdges p2n schema.connections) gnodes.length gnodes
    unfold kahn at hk
    rw [hk] at this
    simpa using this
  have hndord : ((kahn gnodes (buildEdges p2n schema.connections)).1).Nodup :=
    (List.Perm.nodup_iff hperm).mpr hnd
  subst hst2
  intro i hi t ht
  simp only [emitSteps, List.length_map] at hi
  simp only [List.get_eq_getElem, emitSteps, List.getElem_map] at ht
  rw [List.mem_map] at ht
  obtain ⟨e, hef, het⟩ := ht
  rw [List.mem_filter] at hef
  obtain ⟨heedges, hedst⟩ := hef
  have hedst2 : e.dst = (kahn gnodes (buildEdges p2n schema.connections)).1[i] := by
    simpa using hedst
  have hsrcg : e.src ∈ gnodes := (hend e heedges).1
  have hdstg : e.dst ∈ gnodes := (hend e heedges).2
  have horder := kahnAux_order (buildEdges p2n schema.connections) gnodes.length gnodes
    (by unfold kahn at hk; exact hk) e heedges hsrcg hdstg
  have hidxdst : List.indexOf e.dst (kahn gnodes (buildEdges p2n schema.connections)).1 = i := by
    rw [hedst2]
    exact List.indexOf_getElem hndord i hi
  have hsrcord : e.src ∈ (kahn gnodes (buildEdges p2n schema.connections)).1 :=
    (List.Perm.mem_iff hperm).mpr hsrcg
  have hjlt : List.indexOf e.src (kahn gnodes (buildEdges p2n schema.connections)).1
      < (kahn gnodes (buildEdges p2n schema.connections)).1.length :=
    List.indexOf_lt_length.mpr hsrcord
  refine ⟨List.indexOf e.src (kahn gnodes (buildEdges p2n schema.connections)).1,
    by simpa [emitSteps, List.length_map] using hjlt, ?_, ?_⟩
  · unfold kahn at horder hidxdst ⊢
    omega
  · simp only [List.get_eq_getElem, emitSteps, List.getElem_map]
    rw [← het]
    exact List.getElem_indexOf hjlt

/-- Linear schema `Const(c) → AddOne(a)` via connection `co → ai`. -/
def schLinear : Schema :=
  { nodes := [ { id := "c", type := "Const", inputs := [],
                 outputs := [("O", { id := "co", value := Val.none })] },
               { id := "a", type := "AddOne",
                 inputs := [("I", { id := "ai", value := Val.none })],
                 outputs := [("O", { id := "ao", value := Val.none })] } ],
    connections := [ { fromPort := "co", toPort := "ai" } ] }

/-- Witness for C3 on the linear schema: the step at position 1 (`AddOne`)
carries the transfer from `Const`, and the `Const` step indeed appears at
an earlier position. -/
theorem C3_topological_order_witness :
    setSchema exEngine schLinear = ((setSchema exEngine schLinear).1, Option.none) ∧
    1 < (setSchema exEngine schLinear).1._compiled_sequence.length ∧
    (∃ j, ∃ hj : j < (setSchema exEngine schLinear).1._compiled_sequence.length,
      j < 1 ∧ ((setSchema exEngine schLinear).1._compiled_sequence.get ⟨j, hj⟩).nid
        = (("c", "O", "I") : String × String × String).1) := by
  refine ⟨by decide, by decide, ?_⟩
  exact C3_topological_order exEngine schLinear (setSchema exEngine schLinear).1
    (by decide) 1 (by decide) ("c", "O", "I") (by decide)

/-- The instance edge a connection resolves to through `port_to_node`, when
both endpoints resolve (otherwise the connection is dropped). -/
def resolveConn (p2n : Dict (String × String)) (c : Conn) : Option Edge :=
  match dictGet? p2n c.fromPort, dictGet? p2n c.toPort with
  | some s, some d => some { src := s.1, dst := d.1, out_p := s.2, in_p := d.2 }
  | _, _ => Option.none

theorem buildEdges_eq_filterMap (p2n : Dict (String × String)) :
    ∀ (conns : List Conn), buildEdges p2n conns = conns.filterMap (resolveConn p2n) := by
  intro conns
  induction conns with
  | nil => rfl
  | cons c rest ih =>
    unfold buildEdges
    rw [List.filterMap_cons]
    unfold resolveConn
    rcases hf : dictGet? p2n c.fromPort with _ | s <;>
      rcases htt : dictGet? p2n c.toPort with _ | d <;> exact ih ▸ rfl

theorem filterMap_filter_len (p2n : Dict (String × String)) (E : Edge) :
    ∀ (conns : List Conn),
      ((conns.filterMap (resolveConn p2n)).filter (fun e => e == E)).length
        = (conns.filter (fun c => resolveConn p2n c == some E)).length := by
  intro conns
  induction conns with
  | nil => rfl
  | cons c rest ih =>
    rw [List.filterMap_cons, List.filter_cons]
    rcases hr : resolveConn p2n c with _ | e
    · rw [if_neg (by simp)]
      exact ih
    · rw [List.filter_cons]
      by_cases he : e = E
      · rw [if_pos (by simpa using he), if_pos (by simpa using he)]
        simp [ih]
      · rw [if_neg (by simpa using he), if_neg (by simpa using he)]
        exact ih

theorem transfers_filter_len (nid A o p : String) :
    ∀ (edges : List Edge),
      (((edges.filter (fun e => e.dst == nid)).map (fun e => (e.src, e.out_p, e.in_p))).filter
          (fun t => t == ((A, o, p) : String × String × String))).length
        = (edges.filter
            (fun e => e == ({ src := A, dst := nid, out_p := o, in_p := p } : Edge))).length := by
  intro edges
  induction edges with
  | nil => rfl
  | cons e rest ih =>
    rcases e with ⟨es, ed, eo, ep⟩
    by_cases hd : ed = nid
    · subst hd
      rw [List.filter_cons, if_pos (by simp), List.map_cons, List.filter_cons, List.filter_cons]
      by_cases ht : es = A ∧ eo = o ∧ ep = p
      · obtain ⟨h1, h2, h3⟩ := ht
        subst h1
        subst h2
        subst h3
        rw [if_pos (by simp), if_pos (by simp)]
        simp [ih]
      · have hbt : ¬(((es, eo, ep) : String × String × String) == (A, o, p)) = true := by
          simpa [Prod.ext_iff] using ht
        have hbe : ¬((⟨es, ed, eo, ep⟩ : Edge) == ⟨A, ed, o, p⟩) = true := by
          simpa [Edge.mk.injEq] using ht
        rw [if_neg hbt, if_neg hbe]
        exact ih
    · rw [List.filter_cons, if_neg (by simpa using hd), List.filter_cons,
        if_neg (by simp [Edge.mk.injEq]; intro _ h2; exact absurd h2 hd)]
      exact ih

/-- C4: in every successful compilation, the step for an instance `B`
contains one transfer tuple per connection resolving to the edge
`A → B` with port pair `(o, p)` — parallel edges are preserved, never
collapsed: the number of `(A, o, p)` transfers in the step equals the
number of connections resolving to exactly that instance edge. -/
theorem C4_parallel_edges (st : EngineState) (schema : Schema) (st2 : EngineState)
    (h : setSchema st schema = (st2, Option.none)) :
    ∀ (i : Nat) (hi : i < st2._compiled_sequence.length) (A o p : String),
      (((st2._compiled_sequence.get ⟨i, hi⟩).transfers).filter
          (fun t => t == ((A, o, p) : String × String × String))).length
        = (schema.connections.filter (fun c =>
            resolveConn (phase1 st schema).2.2.1 c
              == some { src := A, dst := (st2._compiled_sequence.get ⟨i, hi⟩).nid,
                        out_p := o, in_p := p })).length := by
  obtain ⟨insts, gnodes, p2n, hp, hk, hst2⟩ := setSchema_ok_shape st schema st2 h
  subst hst2
  intro i hi A o p
  rw [hp]
  simp only [List.get_eq_getElem, emitSteps, List.getElem_map]
  rw [transfers_filter_len]
  have hb : i < (kahn gnodes (buildEdges p2n schema.connections)).1.length := by
    simpa [emitSteps, List.length_map] using hi
  generalize (kahn gnodes (buildEdges p2n schema.connections)).1[i] = B
  rw [buildEdges_eq_filterMap, filterMap_filter_len]

/-- Example template: a combiner with input ports `A`, `B` and output `O`. -/
def pairB : Block :=
  Block.add_output (Block.add_input (Block.add_input (Block.mkBlock "Pair") "A") "B") "O"

/-- An engine with the `Const` and `Pair` templates registered. -/
def exEngine2 : EngineState := registerBlocks EngineState.fresh [constB, pairB]

/-- Schema in which `Const(c)` feeds both `Pair.A` and `Pair.B` via two
separate connections — two parallel edges `c → p` with distinct port
pairs. -/
def schMulti : Schema :=
  { nodes := [ { id := "c", type := "Const", inputs := [],
                 outputs := [("O", { id := "co", value := Val.none })] },
               { id := "p", type := "Pair",
                 inputs := [("A", { id := "pa", value := Val.none }),
                            ("B", { id := "pb", value := Val.none })],
                 outputs := [("O", { id := "po", value := Val.none })] } ],
    connections := [ { fromPort := "co", toPort := "pa" },
                     { fromPort := "co", toPort := "pb" } ] }

/-- Witness for C4 on the fan-out schema: the `Pair` step (position 1)
carries exactly one `("c","O","A")` transfer, matching the one connection
resolving to that edge, alongside the parallel `("c","O","B")` one. -/
theorem C4_parallel_edges_witness :
    setSchema exEngine2 schMulti = ((setSchema exEngine2 schMulti).1, Option.none) ∧
    ((((setSchema exEngine2 schMulti).1._compiled_sequence.get
          ⟨1, by decide⟩).transfers.filter
        (fun t => t == (("c", "O", "A") : String × String × String))).length
      = (schMulti.connections.filter (fun c =>
          resolveConn (phase1 exEngine2 schMulti).2.2.1 c
            == some { src := "c",
                      dst := ((setSchema exEngine2 schMulti).1._compiled_sequence.get
                        ⟨1, by decide⟩).nid,
                      out_p := "O", in_p := "A" })).length) :=
  ⟨by decide,
   C4_parallel_edges exEngine2 schMulti (setSchema exEngine2 schMulti).1
     (by decide) 1 (by decide) "c" "O" "A"⟩

/-- The loop `for inst in engine.instances.values(): inst.reset()` at the
top of `EngineManager._return_instance`.  `src/app/flow/block.py` defines
no method named `reset` on `Block` (and no subclass in the repository adds
one), so the first iteration raises
`AttributeError("'Block' object has no attribute 'reset'")`; with no
instances the loop body never runs and nothing is raised. -/
def resetAllInstances (instances : Dict Block) : Except PyErr Unit :=
  match instances with
  | [] => Except.ok ()
  | _ :: _ => Except.error (PyErr.attributeError "'Block' object has no attribute 'reset'")

/-- The state of an `EngineManager`: block libraries per business, the
blueprint cache (the LRU eviction policy of `LRUCache(100)` is abstracted
as a plain map — no claim depends on eviction), the instance pools and the
pool capacity.  Locks are not modelled (single-threaded interleaving). -/
structure ManagerState where
  _block_libraries : Dict (List Block)
  _blueprints : Dict EngineState
  _instance_pools : Dict (List EngineState)
  _pool_max : Nat
deriving DecidableEq, Repr

/-- `EngineManager.register_business`. -/
def register_business (m : ManagerState) (business_id : String) (blocks : List Block) :
    ManagerState :=
  { m with _block_libraries := dictSet m._block_libraries business_id blocks }

/-- `EngineManager._create_blueprint_internal`: raise for an unregistered
business, compile the schema into a fresh engine, then install the
blueprint and an empty pool.  On a compile error nothing is installed. -/
def _create_blueprint_internal (m : ManagerState) (biz_id : String) (schema : Schema)
    (s_hash : String) : ManagerState × Option PyErr :=
  match dictGet? m._block_libraries biz_id with
  | Option.none =>
      (m, some (PyErr.valueError
        (String.append (String.append "Business " biz_id) " not registered.")))
  | some blocks =>
    match setSchema (registerBlocks EngineState.fresh blocks) schema with
    | (_, some e) => (m, some e)
    | (bp, Option.none) =>
      ({ m with _blueprints := dictSet m._blueprints s_hash bp,
                _instance_pools := dictSet m._instance_pools s_hash [] }, Option.none)

/-- `EngineManager._get_instance`: pop the front of the pool
(`deque.popleft`), else deep-clone the blueprint; `KeyError` when the hash
is unknown. -/
def _get_instance (m : ManagerState) (s_hash : String) :
    ManagerState × Except PyErr EngineState :=
  match dictGet? m._instance_pools s_hash with
  | Option.none => (m, Except.error (PyErr.keyError s_hash))
  | some [] =>
    match dictGet? m._blueprints s_hash with
    | Option.none => (m, Except.error (PyErr.keyError s_hash))
    | some bp => (m, Except.ok bp)
  | some (e :: rest) =>
      ({ m with _instance_pools := dictSet m._instance_pools s_hash rest }, Except.ok e)

/-- `EngineManager._return_instance`: reset every instance (which raises —
see `resetAllInstances`), then append the engine to its pool only when the
pool exists and its length is strictly below `self._pool_max`. -/
def _return_instance (m : ManagerState) (s_hash : String) (engine : EngineState) :
    ManagerState × Option PyErr :=
  match resetAllInstances engine.instances with
  | Except.error e => (m, some e)
  | Except.ok _ =>
    match dictGet? m._instance_pools s_hash with
    | Option.none => (m, Option.none)
    | some pool =>
      if pool.length < m._pool_max then
        ({ m with _instance_pools := dictSet m._instance_pools s_hash (pool ++ [engine]) },
         Option.none)
      else (m, Option.none)

/-- Every pool's queue is within the configured capacity. -/
def PoolsBounded (m : ManagerState) : Prop :=
  ∀ (k : String) (q : List EngineState),
    dictGet? m._instance_pools k = some q → q.length ≤ m._pool_max

/-- C9: every manager operation that touches the pools preserves
`len(pools[key]) ≤ pool_size` for every key: `_create_blueprint_internal`
installs an empty pool, `_get_instance` only pops, and `_return_instance`
appends only when the length is strictly below the cap. -/
theorem poolsBounded_set (libs : Dict (List Block)) (bps : Dict EngineState)
    (pools : Dict (List EngineState)) (pm : Nat)
    (h : ∀ (k : String) (q : List EngineState), dictGet? pools k = some q → q.length ≤ pm)
    (k0 : String) (q0 : List EngineState) (hq0 : q0.length ≤ pm) :
    PoolsBounded { _block_libraries := libs, _blueprints := bps,
                   _instance_pools := dictSet pools k0 q0, _pool_max := pm } := by
  intro k q hq
  dsimp only at hq ⊢
  by_cases hk : k0 = k
  · rw [← hk, dictGet?_dictSet_self] at hq
    have hq2 : q0 = q := by simpa using hq
    rw [← hq2]
    exact hq0
  · rw [dictGet?_dictSet_ne _ _ _ _ hk] at hq
    exact h k q hq

/-- C9: every manager operation that touches the pools preserves
`len(pools[key]) ≤ pool_size` for every key: `_create_blueprint_internal`
installs an empty pool, `_get_instance` only pops, and `_return_instance`
appends only when the length is strictly below the cap. -/
theorem C9_pool_bound (m : ManagerState) (h : PoolsBounded m)
    (biz_id : String) (schema : Schema) (s_hash : String) (engine : EngineState) :
    PoolsBounded (_create_blueprint_internal m biz_id schema s_hash).1 ∧
    PoolsBounded (_get_instance m s_hash).1 ∧
    PoolsBounded (_return_instance m s_hash engine).1 := by
  refine ⟨?_, ?_, ?_⟩
  · unfold _create_blueprint_internal
    rcases hl : dictGet? m._block_libraries biz_id with _ | blocks
    · exact h
    · dsimp only
      rcases hs : setSchema (registerBlocks EngineState.fresh blocks) schema with ⟨bp, e?⟩
      rcases e? with _ | e
      · exact poolsBounded_set m._block_libraries (dictSet m._blueprints s_hash bp)
          m._instance_pools m._pool_max h s_hash [] (Nat.zero_le _)
      · exact h
  · unfold _get_instance
    rcases hp : dictGet? m._instance_pools s_hash with _ | pool
    · exact h
    · rcases pool with _ | ⟨e0, rest⟩
      · rcases hb : dictGet? m._blueprints s_hash with _ | bp
        · exact h
        · exact h
      · exact poolsBounded_set m._block_libraries m._blueprints
          m._instance_pools m._pool_max h s_hash rest
          (Nat.le_of_succ_le (h s_hash (e0 :: rest) hp))
  · unfold _return_instance
    rcases hr : resetAllInstances engine.instances with e | u
    · exact h
    · rcases hp : dictGet? m._instance_pools s_hash with _ | pool
      · exact h
      · dsimp only
        by_cases hlen : pool.length < m._pool_max
        · rw [if_pos hlen]
          refine poolsBounded_set m._block_libraries m._blueprints
            m._instance_pools m._pool_max h s_hash (pool ++ [engine]) ?_
          simp only [List.length_append, List.length_singleton]
          omega
        · rw [if_neg hlen]
          exact h

/-- A manager with an empty pool for hash `"h"` and default capacity 10. -/
def mgrC5 : ManagerState :=
  { _block_libraries := [], _blueprints := [],
    _instance_pools := [("h", [])], _pool_max := 10 }

/-- Witness for C9 at the concrete manager state `mgrC5`, exercising all
three operations. -/
theorem C9_pool_bound_witness :
    PoolsBounded mgrC5 ∧
    (PoolsBounded (_create_blueprint_internal mgrC5 "daq" schLinear "h").1 ∧
     PoolsBounded (_get_instance mgrC5 "h").1 ∧
     PoolsBounded (_return_instance mgrC5 "h" EngineState.fresh).1) := by
  have hb : PoolsBounded mgrC5 := by
    intro k q hq
    unfold mgrC5 dictGet? at hq
    by_cases hk : (("h" : String) == k) = true
    · rw [if_pos hk] at hq
      have hq2 : ([] : List EngineState) = q := by simpa using hq
      rw [← hq2]
      simp
    · rw [if_neg hk] at hq
      simp [dictGet?] at hq
  exact ⟨hb, C9_pool_bound _ hb "daq" schLinear "h" EngineState.fresh⟩

/-- The compiled linear engine: holds two block instances. -/
def engC5 : EngineState := (setSchema exEngine schLinear).1

/-- C5 (code bug): returning an engine that holds at least one instance
raises `AttributeError` — `flow/block.py` defines no `reset` method — so
`_return_instance` neither clears any port buffer nor returns the engine to
its pool: the manager state is unchanged and the error propagates. -/
theorem C5_reset_attribute_error :
    engC5.instances ≠ [] ∧
    _return_instance mgrC5 "h" engC5
      = (mgrC5, some (PyErr.attributeError "'Block' object has no attribute 'reset'")) := by
  decide

/-- The mutable per-run store: each instance id names one block object.
`ComputeEngine.run` mutates the objects of `self.instances` in place; here
the store maps the id to the object's current state. -/
def Store := String → Block

/-- A compute semantics: what a block's `on_compute` does, as a pure
function of the block's name, input-port buffers and options, yielding
either a raised exception or the list of `set_interface` writes performed.
The base `Block.on_compute` does nothing; subclasses read inputs via
`get_interface`/options and write outputs via `set_interface`, which this
signature captures.  A failing compute is modelled as performing no writes
(spec §4.4.4: a failing node's outputs are undefined; no claim depends on
them). -/
def ComputeF := String → Dict Val → Dict OptionDesc → Except PyErr (List (String × Val))

/-- The transfer loop of one step:
`block._inputs[dst_port] = src_block._outputs.get(src_port)`. -/
def applyTransfers (store : Store) (nid : String) :
    List (String × String × String) → Store
  | [] => store
  | (srcId, srcPort, dstPort) :: rest =>
    let b := store nid
    let v := match dictGet? (store srcId)._outputs srcPort with
      | some v => v
      | Option.none => Val.none
    applyTransfers
      (Function.update store nid { b with _inputs := dictSet b._inputs dstPort v })
      nid rest

/-- One step of the sequential executor: copy the transfers, then invoke
the block's compute; on success apply its `set_interface` writes. -/
def execStep (f : ComputeF) (store : Store) (nid : String)
    (transfers : List (String × String × String)) : Except PyErr Store :=
  let store1 := applyTransfers store nid transfers
  let b := store1 nid
  match f b.name b._inputs b._options with
  | Except.error e => Except.error e
  | Except.ok writes =>
      Except.ok (Function.update store1 nid
        (writes.foldl (fun bb w => Block.set_interface bb w.1 w.2) b))

/-- The step loop of `ComputeEngine.run`: execute the compiled steps in
order, recording each instance id on which `on_compute` was invoked; the
inner `except` re-raises, so the loop stops at the first error with the
failing step's transfers already applied. -/
def runSteps (f : ComputeF) : Store → List Step → Store × List String × Option PyErr
  | store, [] => (store, [], Option.none)
  | store, step :: rest =>
    match execStep f store step.nid step.transfers with
    | Except.error e => (applyTransfers store step.nid step.transfers, [step.nid], some e)
    | Except.ok store2 =>
      let res := runSteps f store2 rest
      (res.1, step.nid :: res.2.1, res.2.2)

/-- The observable outcome of `ComputeEngine.run`: the final store, the ids
whose `on_compute` was invoked, and what `run` raises to its caller. -/
structure RunResult where
  store : Store
  computed : List String
  raised : Option PyErr

/-- `ComputeEngine.run`: the outer `try` catches every exception escaping
the step loop and only logs `"🛑 流程运行异常终止"`, so `run` always
returns normally to its caller — `raised` is `none` whatever happened
inside. -/
def ComputeEngine.run (f : ComputeF) (store : Store) (plan : List Step) : RunResult :=
  let res := runSteps f store plan
  { store := res.1, computed := res.2.1, raised := Option.none }

/-- The store view of `self.instances` (ids outside the map never occur in
a compiled plan). -/
def storeOf (insts : Dict Block) : Store := fun id =>
  match dictGet? insts id with
  | some b => b
  | Option.none => Block.mkBlock ""

/-- Did the computation raise? -/
def isErr {α : Type} : Except PyErr α → Bool
  | Except.error _ => true
  | Except.ok _ => false

theorem applyTransfers_frame (nid : String) :
    ∀ (trs : List (String × String × String)) (store : Store) (id : String),
      id ≠ nid → applyTransfers store nid trs id = store id := by
  intro trs
  induction trs with
  | nil => intro store id _; rfl
  | cons t rest ih =>
    obtain ⟨srcId, srcPort, dstPort⟩ := t
    intro store id hid
    unfold applyTransfers
    rw [ih _ _ hid]
    exact Function.update_noteq hid _ _

theorem runSteps_ok_computed (f : ComputeF) :
    ∀ (l : List Step) (store : Store), (runSteps f store l).2.2 = Option.none →
      (runSteps f store l).2.1 = l.map Step.nid := by
  intro l
  induction l with
  | nil => intro store _; rfl
  | cons s rest ih =>
    intro store h
    rcases he : execStep f store s.nid s.transfers with e | store2
    · exfalso
      have hbad : (runSteps f store (s :: rest)).2.2 = some e := by
        conv_lhs => unfold runSteps
        rw [he]
      rw [h] at hbad
      simp at hbad
    · have hsr : runSteps f store (s :: rest)
          = ((runSteps f store2 rest).1, s.nid :: (runSteps f store2 rest).2.1,
             (runSteps f store2 rest).2.2) := by
        conv_lhs => unfold runSteps
        rw [he]
      rw [hsr] at h ⊢
      dsimp only at h ⊢
      rw [List.map_cons, ih _ h]

theorem runSteps_append (f : ComputeF) :
    ∀ (l1 l2 : List Step) (store : Store), (runSteps f store l1).2.2 = Option.none →
      runSteps f store (l1 ++ l2)
        = ((runSteps f (runSteps f store l1).1 l2).1,
           (runSteps f store l1).2.1 ++ (runSteps f (runSteps f store l1).1 l2).2.1,
           (runSteps f (runSteps f store l1).1 l2).2.2) := by
  intro l1
  induction l1 with
  | nil => intro l2 store _; rfl
  | cons s rest ih =>
    intro l2 store h
    rcases he : execStep f store s.nid s.transfers with e | store2
    · exfalso
      have hbad : (runSteps f store (s :: rest)).2.2 = some e := by
        conv_lhs => unfold runSteps
        rw [he]
      rw [h] at hbad
      simp at hbad
    · have hsr : runSteps f store (s :: rest)
          = ((runSteps f store2 rest).1, s.nid :: (runSteps f store2 rest).2.1,
             (runSteps f store2 rest).2.2) := by
        conv_lhs => unfold runSteps
        rw [he]
      have hstep : runSteps f store (s :: (rest ++ l2))
          = ((runSteps f store2 (rest ++ l2)).1,
             s.nid :: (runSteps f store2 (rest ++ l2)).2.1,
             (runSteps f store2 (rest ++ l2)).2.2) := by
        conv_lhs => unfold runSteps
        rw [he]
      rw [hsr] at h
      dsimp only at h
      rw [List.cons_append, hstep, hsr, ih l2 store2 h]
      simp

theorem runSteps_untouched (f : ComputeF) :
    ∀ (l : List Step) (store : Store) (id : String),
      (∀ s ∈ l, s.nid ≠ id) → (runSteps f store l).1 id = store id := by
  intro l
  induction l with
  | nil => intro store id _; rfl
  | cons s rest ih =>
    intro store id h
    have hs : s.nid ≠ id := h s (List.mem_cons_self _ _)
    rcases he : execStep f store s.nid s.transfers with e | store2
    · have hsr : (runSteps f store (s :: rest)).1 = applyTransfers store s.nid s.transfers := by
        unfold runSteps
        rw [he]
      rw [hsr]
      exact applyTransfers_frame _ _ _ _ (fun hh => hs hh.symm)
    · have hsr : (runSteps f store (s :: rest)).1 = (runSteps f store2 rest).1 := by
        conv_lhs => unfold runSteps
        rw [he]
      rw [hsr, ih _ _ (fun s2 hs2 => h s2 (List.mem_cons_of_mem _ hs2))]
      unfold execStep at he
      dsimp only at he
      rcases hf : f (applyTransfers store s.nid s.transfers s.nid).name
          (applyTransfers store s.nid s.transfers s.nid)._inputs
          (applyTransfers store s.nid s.transfers s.nid)._options with e | writes <;>
        rw [hf] at he
      · simp at he
      · have hst : store2 = Function.update (applyTransfers store s.nid s.transfers) s.nid
            (writes.foldl (fun bb w => Block.set_interface bb w.1 w.2)
              (applyTransfers store s.nid s.transfers s.nid)) := by
          simpa using he.symm
        rw [hst, Function.update_noteq (fun hh => hs hh.symm)]
        exact applyTransfers_frame _ _ _ _ (fun hh => hs hh.symm)

/-- C1 (amended): when the earlier steps succeed and the `on_compute` of
the block at step `i` raises during sequential `run()`, no later step is
executed — `on_compute` is invoked exactly on the first `i+1` steps, and
(for plans with distinct instance ids, as compiled plans are) the block of
every later step is left untouched — but the error does NOT propagate out
of `run()`: the outer `except` swallows it after logging, and `run` returns
normally to its caller. -/
theorem C1_first_error_aborts_run (f : ComputeF) (store : Store) (plan : List Step)
    (i : Nat) (hi : i < plan.length)
    (hnd : (plan.map Step.nid).Nodup)
    (hpre : (runSteps f store (plan.take i)).2.2 = Option.none)
    (herr : isErr (execStep f (runSteps f store (plan.take i)).1
      (plan.get ⟨i, hi⟩).nid (plan.get ⟨i, hi⟩).transfers) = true) :
    (ComputeEngine.run f store plan).raised = Option.none ∧
    (ComputeEngine.run f store plan).computed = (plan.take (i + 1)).map Step.nid ∧
    (∀ j (hj : j < plan.length), i < j →
      (ComputeEngine.run f store plan).store ((plan.get ⟨j, hj⟩).nid)
        = store ((plan.get ⟨j, hj⟩).nid)) := by
  obtain ⟨e, he⟩ : ∃ e, execStep f (runSteps f store (plan.take i)).1
      (plan.get ⟨i, hi⟩).nid (plan.get ⟨i, hi⟩).transfers = Except.error e := by
    rcases hx : execStep f (runSteps f store (plan.take i)).1
        (plan.get ⟨i, hi⟩).nid (plan.get ⟨i, hi⟩).transfers with e2 | s2
    · exact ⟨e2, rfl⟩
    · rw [hx] at herr
      simp [isErr] at herr
  have hsplit : plan = plan.take i ++ (plan.get ⟨i, hi⟩ :: plan.drop (i + 1)) := by
    conv_lhs => rw [← List.take_append_drop i plan]
    rw [List.drop_eq_getElem_cons hi]
    rfl
  have hrun : runSteps f store plan
      = ((applyTransfers (runSteps f store (plan.take i)).1
            (plan.get ⟨i, hi⟩).nid (plan.get ⟨i, hi⟩).transfers),
         (runSteps f store (plan.take i)).2.1 ++ [(plan.get ⟨i, hi⟩).nid],
         some e) := by
    conv_lhs => rw [hsplit]
    rw [runSteps_append f _ _ _ hpre]
    have hhd : runSteps f (runSteps f store (plan.take i)).1
        (plan.get ⟨i, hi⟩ :: plan.drop (i + 1))
        = ((applyTransfers (runSteps f store (plan.take i)).1
              (plan.get ⟨i, hi⟩).nid (plan.get ⟨i, hi⟩).transfers),
           [(plan.get ⟨i, hi⟩).nid], some e) := by
      conv_lhs => unfold runSteps
      rw [he]
    rw [hhd]
  refine ⟨rfl, ?_, ?_⟩
  · show (runSteps f store plan).2.1 = (plan.take (i + 1)).map Step.nid
    rw [hrun]
    dsimp only
    rw [runSteps_ok_computed f _ _ hpre]
    rw [List.take_succ, List.getElem?_eq_getElem hi, List.map_append]
    rfl
  · intro j hj hij
    show (runSteps f store plan).1 ((plan.get ⟨j, hj⟩).nid) = store ((plan.get ⟨j, hj⟩).nid)
    rw [hrun]
    dsimp only
    have hne : ∀ (k : Nat) (hk : k < plan.length), k ≠ j →
        (plan.get ⟨k, hk⟩).nid ≠ (plan.get ⟨j, hj⟩).nid := by
      intro k hk hkj hcon
      have hk2 : k < (plan.map Step.nid).length := by simpa using hk
      have hj2 : j < (plan.map Step.nid).length := by simpa using hj
      have h1 : (plan.map Step.nid)[k] = (plan.map Step.nid)[j] := by
        simp only [List.getElem_map]
        simpa [List.get_eq_getElem] using hcon
      exact hkj ((List.Nodup.getElem_inj_iff hnd).mp h1)
    rw [applyTransfers_frame _ _ _ _ (fun hcon => hne i hi (by omega) hcon.symm)]
    apply runSteps_untouched
    intro s hsmem
    obtain ⟨k, hk, hks⟩ := List.mem_take_iff_getElem.mp hsmem
    have hklt : k < plan.length := lt_of_lt_of_le hk (by simp)
    have : plan[k] = s := by simpa using hks
    rw [← this]
    exact hne k hklt (by omega)

/-- A compute semantics that fails on every `Const` block and writes
nothing elsewhere. -/
def failConstF : ComputeF := fun name _ _ =>
  if name == "Const" then Except.error (PyErr.valueError "boom") else Except.ok []

/-- Counterexample to C1 as stated: on the compiled `Const → AddOne` plan
whose `Const` compute raises, `run()` invokes `on_compute` only on the
failing first step — but `raised` is `none`: the error does NOT propagate
out of `run()` to its caller (the outer `except` logs and returns). -/
theorem C1_error_not_propagated_counterexample :
    (ComputeEngine.run failConstF (storeOf engC5.instances)
        engC5._compiled_sequence).raised = Option.none ∧
    (ComputeEngine.run failConstF (storeOf engC5.instances)
        engC5._compiled_sequence).computed = ["c"] ∧
    isErr (execStep failConstF (storeOf engC5.instances) "c" []) = true := by
  refine ⟨rfl, ?_, by decide⟩
  decide

/-- Witness for C1 (amended) on the concrete failing plan, at step 0. -/
theorem C1_first_error_aborts_run_witness :
    (0 < engC5._compiled_sequence.length ∧
     (engC5._compiled_sequence.map Step.nid).Nodup ∧
     (runSteps failConstF (storeOf engC5.instances)
        (engC5._compiled_sequence.take 0)).2.2 = Option.none ∧
     isErr (execStep failConstF
        (runSteps failConstF (storeOf engC5.instances)
          (engC5._compiled_sequence.take 0)).1
        (engC5._compiled_sequence.get ⟨0, by decide⟩).nid
        (engC5._compiled_sequence.get ⟨0, by decide⟩).transfers) = true) ∧
    ((ComputeEngine.run failConstF (storeOf engC5.instances)
        engC5._compiled_sequence).raised = Option.none ∧
     (ComputeEngine.run failConstF (storeOf engC5.instances)
        engC5._compiled_sequence).computed
       = (engC5._compiled_sequence.take 1).map Step.nid ∧
     (∀ j (hj : j < engC5._compiled_sequence.length), 0 < j →
       (ComputeEngine.run failConstF (storeOf engC5.instances)
          engC5._compiled_sequence).store
            ((engC5._compiled_sequence.get ⟨j, hj⟩).nid)
         = storeOf engC5.instances ((engC5._compiled_sequence.get ⟨j, hj⟩).nid))) :=
  ⟨⟨by decide, by decide, by decide, by decide⟩,
   C1_first_error_aborts_run failConstF (storeOf engC5.instances)
     engC5._compiled_sequence 0 (by decide) (by decide) (by decide) (by decide)⟩

/-- The compute semantics never raises (C6 quantifies over deterministic
total blocks). -/
def NoFail (f : ComputeF) : Prop :=
  ∀ (n : String) (ins : Dict Val) (opts : Dict OptionDesc),
    ∃ ws, f n ins opts = Except.ok ws

/-- One step, total form: identical to `execStep` on success (the error
branch, unreachable under `NoFail`, keeps the applied transfers). -/
def okStep (f : ComputeF) (store : Store) (s : Step) : Store :=
  match execStep f store s.nid s.transfers with
  | Except.ok s2 => s2
  | Except.error _ => applyTransfers store s.nid s.transfers

/-- Executing a list of steps in order, total form. -/
def okRun (f : ComputeF) : Store → List Step → Store
  | store, [] => store
  | store, s :: rest => okRun f (okStep f store s) rest

theorem execStep_ok (f : ComputeF) (hf : NoFail f) (store : Store) (nid : String)
    (trs : List (String × String × String)) :
    ∃ s2, execStep f store nid trs = Except.ok s2 := by
  unfold execStep
  dsimp only
  obtain ⟨ws, hws⟩ := hf (applyTransfers store nid trs nid).name
    (applyTransfers store nid trs nid)._inputs
    (applyTransfers store nid trs nid)._options
  rw [hws]
  exact ⟨_, rfl⟩

theorem runSteps_eq_okRun (f : ComputeF) (hf : NoFail f) :
    ∀ (l : List Step) (store : Store),
      (runSteps f store l).1 = okRun f store l ∧
      (runSteps f store l).2.2 = Option.none := by
  intro l
  induction l with
  | nil => intro store; exact ⟨rfl, rfl⟩
  | cons s rest ih =>
    intro store
    obtain ⟨s2, hs2⟩ := execStep_ok f hf store s.nid s.transfers
    have hsr : runSteps f store (s :: rest)
        = ((runSteps f s2 rest).1, s.nid :: (runSteps f s2 rest).2.1,
           (runSteps f s2 rest).2.2) := by
      conv_lhs => unfold runSteps
      rw [hs2]
    have hok : okStep f store s = s2 := by
      unfold okStep
      rw [hs2]
    rw [hsr]
    refine ⟨?_, (ih s2).2⟩
    show (runSteps f s2 rest).1 = okRun f (okStep f store s) rest
    rw [hok]
    exact (ih s2).1

theorem okStep_frame (f : ComputeF) (store : Store) (s : Step) (id : String)
    (h : id ≠ s.nid) : okStep f store s id = store id := by
  unfold okStep
  rcases he : execStep f store s.nid s.transfers with e | s2
  · exact applyTransfers_frame _ _ _ _ h
  · unfold execStep at he
    dsimp only at he
    rcases hfc : f (applyTransfers store s.nid s.transfers s.nid).name
        (applyTransfers store s.nid s.transfers s.nid)._inputs
        (applyTransfers store s.nid s.transfers s.nid)._options with e | writes <;>
      rw [hfc] at he
    · simp at he
    · have hst : s2 = Function.update (applyTransfers store s.nid s.transfers) s.nid
          (writes.foldl (fun bb w => Block.set_interface bb w.1 w.2)
            (applyTransfers store s.nid s.transfers s.nid)) := by
        simpa using he.symm
      show s2 id = store id
      rw [hst, Function.update_noteq h]
      exact applyTransfers_frame _ _ _ _ h

theorem okRun_frame (f : ComputeF) :
    ∀ (l : List Step) (store : Store) (id : String),
      (∀ s ∈ l, s.nid ≠ id) → okRun f store l id = store id := by
  intro l
  induction l with
  | nil => intro store id _; rfl
  | cons s rest ih =>
    intro store id h
    unfold okRun
    rw [ih _ _ (fun s2 hs2 => h s2 (List.mem_cons_of_mem _ hs2))]
    exact okStep_frame f store s id (fun hh => h s (List.mem_cons_self _ _) hh.symm)

theorem okRun_append (f : ComputeF) :
    ∀ (l1 l2 : List Step) (store : Store),
      okRun f store (l1 ++ l2) = okRun f (okRun f store l1) l2 := by
  intro l1
  induction l1 with
  | nil => intro l2 store; rfl
  | cons s rest ih =>
    intro l2 store
    rw [List.cons_append]
    show okRun f (okStep f store s) (rest ++ l2)
      = okRun f (okRun f (okStep f store s) rest) l2
    exact ih l2 (okStep f store s)

theorem applyTransfers_congr (nid : String) :
    ∀ (trs : List (String × String × String)) (s1 s2 : Store),
      s1 nid = s2 nid → (∀ t ∈ trs, s1 t.1 = s2 t.1) →
      applyTransfers s1 nid trs nid = applyTransfers s2 nid trs nid := by
  intro trs
  induction trs with
  | nil => intro s1 s2 h1 _; exact h1
  | cons t rest ih =>
    obtain ⟨srcId, srcPort, dstPort⟩ := t
    intro s1 s2 h1 h2
    unfold applyTransfers
    dsimp only
    have hsrc : s1 srcId = s2 srcId :=
      h2 (srcId, srcPort, dstPort) (List.mem_cons_self _ _)
    apply ih
    · rw [Function.update_same, Function.update_same, h1, hsrc]
    · intro t2 ht2
      by_cases hteq : t2.1 = nid
      · rw [hteq, Function.update_same, Function.update_same, h1, hsrc]
      · rw [Function.update_noteq hteq, Function.update_noteq hteq]
        exact h2 t2 (List.mem_cons_of_mem _ ht2)

theorem okStep_congr (f : ComputeF) (hf : NoFail f) (s1 s2 : Store) (st : Step)
    (h1 : s1 st.nid = s2 st.nid) (h2 : ∀ t ∈ st.transfers, s1 t.1 = s2 t.1) :
    okStep f s1 st st.nid = okStep f s2 st st.nid := by
  obtain ⟨r1, hr1⟩ := execStep_ok f hf s1 st.nid st.transfers
  obtain ⟨r2, hr2⟩ := execStep_ok f hf s2 st.nid st.transfers
  have hb : applyTransfers s1 st.nid st.transfers st.nid
      = applyTransfers s2 st.nid st.transfers st.nid :=
    applyTransfers_congr st.nid st.transfers s1 s2 h1 h2
  unfold okStep
  rw [hr1, hr2]
  unfold execStep at hr1 hr2
  dsimp only at hr1 hr2
  rcases hfc : f (applyTransfers s1 st.nid st.transfers st.nid).name
      (applyTransfers s1 st.nid st.transfers st.nid)._inputs
      (applyTransfers s1 st.nid st.transfers st.nid)._options with e | writes
  · rw [hfc] at hr1
    simp at hr1
  · rw [hfc] at hr1
    have hfc2 : f (applyTransfers s2 st.nid st.transfers st.nid).name
        (applyTransfers s2 st.nid st.transfers st.nid)._inputs
        (applyTransfers s2 st.nid st.transfers st.nid)._options = Except.ok writes := by
      rw [← hb]
      exact hfc
    rw [hfc2] at hr2
    have hr1v : r1 = Function.update (applyTransfers s1 st.nid st.transfers) st.nid
        (writes.foldl (fun bb w => Block.set_interface bb w.1 w.2)
          (applyTransfers s1 st.nid st.transfers st.nid)) := by
      simpa using hr1.symm
    have hr2v : r2 = Function.update (applyTransfers s2 st.nid st.transfers) st.nid
        (writes.foldl (fun bb w => Block.set_interface bb w.1 w.2)
          (applyTransfers s2 st.nid st.transfers st.nid)) := by
      simpa using hr2.symm
    show r1 st.nid = r2 st.nid
    rw [hr1v, hr2v, Function.update_same, Function.update_same, hb]

/-- Scanning a step list with a set of already-completed ids: every step's
transfer sources must already be seen (completed) when the step runs. -/
def depGo (seen : List String) : List Step → Bool
  | [] => true
  | s :: rest => s.transfers.all (fun t => seen.contains t.1) && depGo (seen ++ [s.nid]) rest

/-- An execution order is dependency-respecting when every step comes after
all steps producing its transfers' sources.  This is exactly the set of
completion orders `async_run` admits: each task awaits the completion
events of its transfers' source instances before copying inputs and
computing. -/
def depRespecting (plan : List Step) : Bool := depGo [] plan

/-- Positional form of the dependency property: each step's transfer
sources are ids of strictly earlier steps. -/
def PosDep (plan : List Step) : Prop :=
  ∀ (i : Nat) (hi : i < plan.length), ∀ t ∈ (plan.get ⟨i, hi⟩).transfers,
    ∃ j, ∃ hj : j < plan.length, j < i ∧ (plan.get ⟨j, hj⟩).nid = t.1

theorem nodup_nids_ne (plan : List Step) (hnd : (plan.map Step.nid).Nodup)
    (k j : Nat) (hk : k < plan.length) (hj : j < plan.length) (hkj : k ≠ j) :
    (plan.get ⟨k, hk⟩).nid ≠ (plan.get ⟨j, hj⟩).nid := by
  intro hcon
  have hk2 : k < (plan.map Step.nid).length := by simpa using hk
  have hj2 : j < (plan.map Step.nid).length := by simpa using hj
  have h1 : (plan.map Step.nid)[k] = (plan.map Step.nid)[j] := by
    simp only [List.getElem_map]
    simpa [List.get_eq_getElem] using hcon
  exact hkj ((List.Nodup.getElem_inj_iff hnd).mp h1)

theorem okRun_take_succ (f : ComputeF) (store0 : Store) (plan : List Step)
    (k : Nat) (hk : k < plan.length) :
    okRun f store0 (plan.take (k + 1))
      = okStep f (okRun f store0 (plan.take k)) (plan.get ⟨k, hk⟩) := by
  rw [List.take_succ, List.getElem?_eq_getElem hk]
  rw [okRun_append]
  rfl

theorem okRun_take_stable (f : ComputeF) (store0 : Store) (plan : List Step)
    (hnd : (plan.map Step.nid).Nodup) :
    ∀ (m k : Nat), k ≤ m → m ≤ plan.length → ∀ (j : Nat) (hj : j < plan.length), j < k →
      okRun f store0 (plan.take m) (plan.get ⟨j, hj⟩).nid
        = okRun f store0 (plan.take k) (plan.get ⟨j, hj⟩).nid := by
  intro m
  induction m with
  | zero =>
    intro k hk _ j hj hjk
    have : k = 0 := Nat.le_zero.mp hk
    rw [this]
  | succ m ihm =>
    intro k hk hmlen j hj hjk
    rcases Nat.eq_or_lt_of_le hk with heq | hlt
    · rw [heq]
    · have hklem : k ≤ m := by omega
      have hm : m < plan.length := by omega
      rw [okRun_take_succ f store0 plan m hm]
      rw [okStep_frame f _ _ _
        (nodup_nids_ne plan hnd j m hj hm (by omega))]
      exact ihm k hklem (by omega) j hj hjk

theorem okRun_take_self (f : ComputeF) (store0 : Store) (plan : List Step)
    (hnd : (plan.map Step.nid).Nodup) (k : Nat) (hk : k < plan.length) :
    okRun f store0 (plan.take k) (plan.get ⟨k, hk⟩).nid
      = store0 (plan.get ⟨k, hk⟩).nid := by
  apply okRun_frame
  intro s hs
  obtain ⟨j, hjlt, hjs⟩ := List.mem_take_iff_getElem.mp hs
  have hjplan : j < plan.length := lt_of_lt_of_le hjlt (by simp)
  have hsj : plan[j] = s := by simpa using hjs
  rw [← hsj]
  exact nodup_nids_ne plan hnd j k hjplan hk (by omega)

theorem okRun_final_at (f : ComputeF) (store0 : Store) (plan : List Step)
    (hnd : (plan.map Step.nid).Nodup) (k : Nat) (hk : k < plan.length) :
    okRun f store0 plan (plan.get ⟨k, hk⟩).nid
      = okStep f (okRun f store0 (plan.take k)) (plan.get ⟨k, hk⟩)
          (plan.get ⟨k, hk⟩).nid := by
  have h1 : okRun f store0 plan (plan.get ⟨k, hk⟩).nid
      = okRun f store0 (plan.take (k + 1)) (plan.get ⟨k, hk⟩).nid := by
    have := okRun_take_stable f store0 plan hnd plan.length (k + 1)
      (by omega) (by omega) k hk (by omega)
    rw [← this, List.take_length]
  rw [h1, okRun_take_succ f store0 plan k hk]

theorem exec_any_order (f : ComputeF) (hf : NoFail f) (plan : List Step)
    (hnd : (plan.map Step.nid).Nodup) (hpd : PosDep plan) (store0 : Store) :
    ∀ (σ done : List Step) (cur : Store),
      (done ++ σ).Perm plan →
      depGo (done.map Step.nid) σ = true →
      (∀ id, id ∈ done.map Step.nid → cur id = okRun f store0 plan id) →
      (∀ id, id ∉ done.map Step.nid → cur id = store0 id) →
      ∀ id, okRun f cur σ id = okRun f store0 plan id := by
  intro σ
  induction σ with
  | nil =>
    intro done cur hperm hdep hI1 hI2 id
    show cur id = okRun f store0 plan id
    by_cases hid : id ∈ done.map Step.nid
    · exact hI1 id hid
    · have hidsplan : id ∉ plan.map Step.nid := by
        intro hin
        apply hid
        have hpm : (plan.map Step.nid).Perm ((done ++ []).map Step.nid) :=
          List.Perm.map _ hperm.symm
        rw [List.append_nil] at hpm
        exact hpm.mem_iff.mp hin
      rw [hI2 id hid]
      symm
      apply okRun_frame
      intro s hs hcon
      apply hidsplan
      rw [← hcon]
      exact List.mem_map_of_mem Step.nid hs
  | cons st σrest ih =>
    intro done cur hperm hdep hI1 hI2 id
    have hdep' : (st.transfers.all (fun t => (done.map Step.nid).contains t.1)) = true ∧
        depGo (done.map Step.nid ++ [st.nid]) σrest = true := by
      simpa [depGo, Bool.and_eq_true] using hdep
    have hstplan : st ∈ plan :=
      hperm.mem_iff.mp (List.mem_append_right _ (List.mem_cons_self _ _))
    obtain ⟨k, hk, hks⟩ := List.getElem_of_mem hstplan
    have hget : plan.get ⟨k, hk⟩ = st := by simpa [List.get_eq_getElem] using hks
    have hndall : ((done ++ st :: σrest).map Step.nid).Nodup :=
      (List.Perm.nodup_iff (List.Perm.map Step.nid hperm)).mpr hnd
    have hstnotdone : st.nid ∉ done.map Step.nid := by
      rw [List.map_append] at hndall
      have hdisj := (List.nodup_append.mp hndall).2.2
      intro hin
      exact hdisj hin (by simp)
    have h1 : cur st.nid = okRun f store0 (plan.take k) st.nid := by
      rw [hI2 st.nid hstnotdone]
      have hself := okRun_take_self f store0 plan hnd k hk
      rw [hget] at hself
      exact hself.symm
    have h2 : ∀ t ∈ st.transfers, cur t.1 = okRun f store0 (plan.take k) t.1 := by
      intro t ht
      have htin : t.1 ∈ done.map Step.nid := by
        have := List.all_eq_true.mp hdep'.1 t ht
        simpa using this
      rw [hI1 t.1 htin]
      have ht2 : t ∈ (plan.get ⟨k, hk⟩).transfers := by
        rw [hget]
        exact ht
      obtain ⟨j, hj, hjk, hjid⟩ := hpd k hk t ht2
      rw [← hjid]
      have e1 : okRun f store0 plan (plan.get ⟨j, hj⟩).nid
          = okRun f store0 (plan.take (j + 1)) (plan.get ⟨j, hj⟩).nid := by
        have := okRun_take_stable f store0 plan hnd plan.length (j + 1)
          (by omega) (by omega) j hj (by omega)
        rw [← this, List.take_length]
      have e2 : okRun f store0 (plan.take k) (plan.get ⟨j, hj⟩).nid
          = okRun f store0 (plan.take (j + 1)) (plan.get ⟨j, hj⟩).nid :=
        okRun_take_stable f store0 plan hnd k (j + 1) (by omega) (by omega) j hj (by omega)
      rw [e1, ← e2]
    have hA : okStep f cur st st.nid = okRun f store0 plan st.nid := by
      rw [okStep_congr f hf cur (okRun f store0 (plan.take k)) st h1 h2]
      have hfin := okRun_final_at f store0 plan hnd k hk
      rw [hget] at hfin
      exact hfin.symm
    show okRun f (okStep f cur st) σrest id = okRun f store0 plan id
    apply ih (done ++ [st]) (okStep f cur st)
    · have hassoc : (done ++ [st]) ++ σrest = done ++ (st :: σrest) := by simp
      rw [hassoc]
      exact hperm
    · rw [List.map_append]
      simpa using hdep'.2
    · intro id2 hid2
      rw [List.map_append] at hid2
      rcases List.mem_append.mp hid2 with hmem | hmem
      · rw [okStep_frame f cur st id2 (fun hcon => hstnotdone (hcon ▸ hmem))]
        exact hI1 id2 hmem
      · have hid2st : id2 = st.nid := by simpa using hmem
        rw [hid2st]
        exact hA
    · intro id2 hid2
      rw [List.map_append] at hid2
      have hne1 : id2 ∉ done.map Step.nid := fun hc => hid2 (List.mem_append.mpr (Or.inl hc))
      have hne2 : id2 ≠ st.nid := fun hc => hid2 (List.mem_append.mpr (Or.inr (by simp [hc])))
      rw [okStep_frame f cur st id2 hne2]
      exact hI2 id2 hne1

theorem emitSteps_nids (edges : List Edge) :
    ∀ (order : List String), (emitSteps edges order).map Step.nid = order := by
  intro order
  induction order with
  | nil => rfl
  | cons n rest ih =>
    simp only [emitSteps, List.map_cons, List.map_map] at ih ⊢
    rw [ih]

theorem setSchema_nids_nodup (st : EngineState) (schema : Schema) (st2 : EngineState)
    (h : setSchema st schema = (st2, Option.none)) :
    (st2._compiled_sequence.map Step.nid).Nodup := by
  obtain ⟨insts, gnodes, p2n, hp, hk, hst2⟩ := setSchema_ok_shape st schema st2 h
  have hnd : gnodes.Nodup := instantiateNodes_gnodes_nodup st.block_templates schema.nodes
    [] [] [] insts gnodes p2n Option.none hp List.nodup_nil
  have hperm : ((kahn gnodes (buildEdges p2n schema.connections)).1).Perm gnodes := by
    have := kahnAux_perm (buildEdges p2n schema.connections) gnodes.length gnodes
    unfold kahn at hk
    rw [hk] at this
    simpa using this
  have hndord : ((kahn gnodes (buildEdges p2n schema.connections)).1).Nodup :=
    (List.Perm.nodup_iff hperm).mpr hnd
  subst hst2
  show ((emitSteps (buildEdges p2n schema.connections)
      (kahn gnodes (buildEdges p2n schema.connections)).1).map Step.nid).Nodup
  rw [emitSteps_nids]
  exact hndord

theorem setSchema_posDep (st : EngineState) (schema : Schema) (st2 : EngineState)
    (h : setSchema st schema = (st2, Option.none)) :
    PosDep st2._compiled_sequence := by
  obtain ⟨insts, gnodes, p2n, hp, hk, hst2⟩ := setSchema_ok_shape st schema st2 h
  have hinv := instantiateNodes_inv st.block_templates schema.nodes [] [] []
    insts gnodes p2n Option.none hp (by intro q hq; simp at hq)
  have hnd : gnodes.Nodup := instantiateNodes_gnodes_nodup st.block_templates schema.nodes
    [] [] [] insts gnodes p2n Option.none hp List.nodup_nil
  have hend := buildEdges_endpoints p2n gnodes hinv.2 schema.connections
  have hperm : ((kahn gnodes (buildEdges p2n schema.connections)).1).Perm gnodes := by
    have := kahnAux_perm (buildEdges p2n schema.connections) gnodes.length gnodes
    unfold kahn at hk
    rw [hk] at this
    simpa using this
  have hndord : ((kahn gnodes (buildEdges p2n schema.connections)).1).Nodup :=
    (List.Perm.nodup_iff hperm).mpr hnd
  subst hst2
  intro i hi t ht
  simp only [emitSteps, List.length_map] at hi
  simp only [List.get_eq_getElem, emitSteps, List.getElem_map] at ht
  rw [List.mem_map] at ht
  obtain ⟨e, hef, het⟩ := ht
  rw [List.mem_filter] at hef
  obtain ⟨heedges, hedst⟩ := hef
  have hedst2 : e.dst = (kahn gnodes (buildEdges p2n schema.connections)).1[i] := by
    simpa using hedst
  have hsrcg : e.src ∈ gnodes := (hend e heedges).1
  have hdstg : e.dst ∈ gnodes := (hend e heedges).2
  have horder := kahnAux_order (buildEdges p2n schema.connections) gnodes.length gnodes
    (by unfold kahn at hk; exact hk) e heedges hsrcg hdstg
  have hidxdst : List.indexOf e.dst (kahn gnodes (buildEdges p2n schema.connections)).1 = i := by
    rw [hedst2]
    exact List.indexOf_getElem hndord i hi
  have hsrcord : e.src ∈ (kahn gnodes (buildEdges p2n schema.connections)).1 :=
    (List.Perm.mem_iff hperm).mpr hsrcg
  have hjlt : List.indexOf e.src (kahn gnodes (buildEdges p2n schema.connections)).1
      < (kahn gnodes (buildEdges p2n schema.connections)).1.length :=
    List.indexOf_lt_length.mpr hsrcord
  refine ⟨List.indexOf e.src (kahn gnodes (buildEdges p2n schema.connections)).1,
    by simpa [emitSteps, List.length_map] using hjlt, ?_, ?_⟩
  · unfold kahn at horder hidxdst ⊢
    omega
  · simp only [List.get_eq_getElem, emitSteps, List.getElem_map]
    rw [← het]
    exact List.getElem_indexOf hjlt

/-- `ComputeEngine.async_run`, linearized.  In the code each node's asyncio
task awaits the done-events of its transfers' source instances, copies its
transfers, runs `on_compute`, and sets its own event in `finally`; the
event loop is single-threaded, so one execution of `async_run` is a
sequential execution of the compiled steps in some completion order
`sched`, and the admissible completion orders are exactly the
dependency-respecting permutations of the compiled sequence
(`sched.Perm plan` with `depRespecting sched = true`).  The outer `except`
mirrors `run`: nothing is raised to the caller. -/
def ComputeEngine.async_run (f : ComputeF) (store : Store) (sched : List Step) : RunResult :=
  let res := runSteps f store sched
  { store := res.1, computed := res.2.1, raised := Option.none }

/-- C6: for deterministic total blocks (`NoFail` compute semantics), every
execution of `async_run` — i.e. every dependency-respecting permutation
`sched` of a successfully compiled sequence — leaves every instance in
exactly the state the sequential `run` leaves it: the final stores agree
at every instance id, so all output (and input) port values coincide, and
in particular each transfer read its source's outputs as written during
the same run. -/
theorem C6_async_run_eq_run (st : EngineState) (schema : Schema) (st2 : EngineState)
    (f : ComputeF) (hf : NoFail f) (store0 : Store) (sched : List Step)
    (hcomp : setSchema st schema = (st2, Option.none))
    (hperm : sched.Perm st2._compiled_sequence)
    (hdep : depRespecting sched = true) :
    ∀ id, (ComputeEngine.async_run f store0 sched).store id
      = (ComputeEngine.run f store0 st2._compiled_sequence).store id := by
  intro id
  have hnd := setSchema_nids_nodup st schema st2 hcomp
  have hpd := setSchema_posDep st schema st2 hcomp
  have h1 : (ComputeEngine.async_run f store0 sched).store = okRun f store0 sched :=
    (runSteps_eq_okRun f hf sched store0).1
  have h2 : (ComputeEngine.run f store0 st2._compiled_sequence).store
      = okRun f store0 st2._compiled_sequence :=
    (runSteps_eq_okRun f hf st2._compiled_sequence store0).1
  rw [h1, h2]
  exact exec_any_order f hf st2._compiled_sequence hnd hpd store0 sched [] store0
    (by simpa using hperm) hdep
    (fun id2 h => absurd h (by simp)) (fun id2 _ => rfl) id

/-- Fan-in schema: two `Const` nodes feed the two inputs of one `Pair`
node, so the two sources may complete in either order. -/
def schFan : Schema :=
  { nodes := [ { id := "c1", type := "Const", inputs := [],
                 outputs := [("O", { id := "c1o", value := Val.none })] },
               { id := "c2", type := "Const", inputs := [],
                 outputs := [("O", { id := "c2o", value := Val.none })] },
               { id := "p", type := "Pair",
                 inputs := [("A", { id := "pa", value := Val.none }),
                            ("B", { id := "pb", value := Val.none })],
                 outputs := [("O", { id := "po", value := Val.none })] } ],
    connections := [ { fromPort := "c1o", toPort := "pa" },
                     { fromPort := "c2o", toPort := "pb" } ] }

/-- A completion order of `schFan`'s plan in which the two `Const` tasks
finish in the opposite order to the compiled sequence. -/
def schedFan : List Step :=
  [ { nid := "c2", transfers := [] },
    { nid := "c1", transfers := [] },
    { nid := "p", transfers := [("c1", "O", "A"), ("c2", "O", "B")] } ]

/-- A deterministic, total compute semantics: every block writes to `O`
the value found on its input `A` (or `1` when absent). -/
def pureF : ComputeF := fun _ ins _ =>
  Except.ok [("O", match dictGet? ins "A" with | some v => v | Option.none => Val.int 1)]

/-- Witness for C6 on the fan-in schema: the swapped completion order is an
admissible `async_run` execution, and its final store agrees with the
sequential run at the sink node `p`. -/
theorem C6_async_run_eq_run_witness :
    (setSchema exEngine2 schFan = ((setSchema exEngine2 schFan).1, Option.none) ∧
     schedFan.Perm (setSchema exEngine2 schFan).1._compiled_sequence ∧
     depRespecting schedFan = true) ∧
    (ComputeEngine.async_run pureF
        (storeOf (setSchema exEngine2 schFan).1.instances) schedFan).store "p"
      = (ComputeEngine.run pureF (storeOf (setSchema exEngine2 schFan).1.instances)
          (setSchema exEngine2 schFan).1._compiled_sequence).store "p" :=
  ⟨⟨by decide, by decide, by decide⟩,
   C6_async_run_eq_run exEngine2 schFan (setSchema exEngine2 schFan).1 pureF
     (fun _ _ _ => ⟨_, rfl⟩) (storeOf (setSchema exEngine2 schFan).1.instances)
     schedFan (by decide) (by decide) (by decide) "p"⟩

end PicoIDE
